import Mathlib

/-!
Verification of the wshacker interception proxy.

A shallow embedding, in Lean 4, of the core logic of the `wshacker`
repository (files `server.go` and `handler.go`): the hostname match table
(`parseDNS` / `isReverse`), the DNS query ledger (a `container/heap`
min-heap plus a transaction-id position index), the DNS packet parser and
hijack responder (`hostFromMsg` / `hackDns` / `handleUDP`), the reverse
proxy response-header logic (`copyResponseHeader` and the non-upgrade
branch of `ServeHTTP`), and the ping/pong control-frame forwarder (`pf`).

Go strings are byte slices; hostnames handled by the program are treated
here as Lean `String`s operated on at the character level, which agrees
with the byte level on valid UTF-8 for the single-byte characters the
code compares against (`'.'`, `'*'`).  Go `len` on a string is the number
of UTF-8 bytes and is modeled by `goLen`.  Go map membership is modeled
by boolean membership in the insertion list (`memB`), and the
`map[int]int` position index of the ledger by a function
`Nat → Option Nat` with pointwise update and delete.  A Go runtime panic
(out-of-range index or negative slice bound) is modeled by `Option.none`.
-/

/-- Go `len` of a string: the number of UTF-8 bytes of its contents. -/
def goLen (s : String) : Nat := s.data.foldl (fun n c => n + c.utf8Size) 0

/-- Boolean membership of a string in a list; models Go
`if _, ok := m[x]; ok` for a `map[string]int` whose insertions are
recorded in the list. -/
def memB (x : String) : List String → Bool
  | [] => false
  | y :: ys => (x == y) || memB x ys

/-- `strings.Split host "."` (separator is the single byte `'.'`),
modeled on the character list of the string.  `Split` of the empty
string yields `[""]`, and every separator occurrence starts a new
segment, exactly as in Go. -/
def splitDots : List Char → List String
  | [] => [""]
  | c :: rest =>
    if c = '.' then "" :: splitDots rest
    else
      match splitDots rest with
      | [] => [String.mk [c]]
      | g :: gs => (String.mk (c :: g.data)) :: gs

/-- `strings.Join ss "."`. -/
def joinDots : List String → String
  | [] => ""
  | [s] => s
  | s :: b :: rest => s ++ "." ++ joinDots (b :: rest)

/-- The trailing-dot normalization at the top of `isReverse`:
`if len(host) > 0 && host[len(host)-1] == '.' { host = host[0:len(host)-1] }`. -/
def stripDot (host : String) : String :=
  match host.data.getLast? with
  | some '.' => String.mk host.data.dropLast
  | _ => host

/-- The two lookup sets of the match table: `wsServer.reverseUrlMap`
(exact hostnames) and `wsServer.reversePrefix` (wildcard suffixes,
stored without the leading `*.`; the field is named `reversePrefixMap`
here). -/
structure WsServer where
  reverseUrlMap : List String
  reversePrefixMap : List String
deriving Repr, DecidableEq

/-- The wildcard-matching loop of `isReverse`:
`ss := strings.Split(host, "."); for len(ss) > 1 { if reversePrefix has
Join(ss, ".") return true; ss = ss[1:] }`.  Note the loop tests the
*full* host (all labels) before dropping any label. -/
def wildLoop (pm : List String) : List String → Bool
  | [] => false
  | [_] => false
  | a :: b :: rest => memB (joinDots (a :: b :: rest)) pm || wildLoop pm (b :: rest)

/-- `wsServer.isReverse` from `server.go`: strip one trailing dot, try the
exact set, then run the wildcard-suffix loop.  (The Go code binds the
stripped host to a local variable used twice; it is inlined here.) -/
def isReverse (s : WsServer) (host : String) : Bool :=
  if memB (stripDot host) s.reverseUrlMap then true
  else wildLoop s.reversePrefixMap (splitDots (stripDot host).data)

/-- One line of `wsServer.parseDNS`: a line longer than 2 bytes is added
to the wildcard set (without its `*.` head) if its first two bytes are
`*.`, and to the exact set otherwise; shorter lines are skipped. -/
def parseLine (s : WsServer) (dns : String) : WsServer :=
  if goLen dns > 2 then
    if dns.data.take 2 = ['*', '.'] then
      { s with reversePrefixMap := s.reversePrefixMap ++ [String.mk (dns.data.drop 2)] }
    else { s with reverseUrlMap := s.reverseUrlMap ++ [dns] }
  else s

/-- `wsServer.parseDNS` from `server.go`, applied to the list of lines of
the hosts file. -/
def parseDNS (lines : List String) : WsServer :=
  lines.foldl parseLine ⟨[], []⟩

/-- The outcome classification of the `WriteControl` error inside the
ping/pong forwarder `pf` of `serveWebSocket` (`server.go`): `closeSent`
models `websocket.ErrCloseSent`, `netErr b` a `net.Error` whose
`Temporary()` method returns `b`, and `other` any other non-nil error. -/
inductive WriteErr where
  | closeSent : WriteErr
  | netErr : Bool → WriteErr
  | other : Nat → WriteErr
deriving Repr, DecidableEq

/-- The control-frame kind forwarded by the handler `pf` installs
(`websocket.PingMessage` or `websocket.PongMessage`). -/
inductive CtlMsg where
  | ping : CtlMsg
  | pong : CtlMsg
deriving Repr, DecidableEq

/-- What one invocation of the handler produced by `pf` does: which
control-frame kind it forwards to the opposite connection, whether it
closes the direction's completion channel, and what it returns. -/
structure PfResult where
  forwarded : CtlMsg
  channelClosed : Bool
  returned : Option WriteErr
deriving Repr, DecidableEq

/-- The handler produced by `pf` in `serveWebSocket` (`server.go`),
parameterized by the kind of control frame it forwards and by the error
the forwarding `WriteControl` reports: `ErrCloseSent` and temporary net
errors are swallowed (return nil, no close); any other non-nil error
closes the direction's completion channel and is returned. -/
def pf (msg : CtlMsg) (err : Option WriteErr) : PfResult :=
  match err with
  | none => { forwarded := msg, channelClosed := false, returned := none }
  | some WriteErr.closeSent => { forwarded := msg, channelClosed := false, returned := none }
  | some (WriteErr.netErr true) => { forwarded := msg, channelClosed := false, returned := none }
  | some (WriteErr.netErr false) =>
    { forwarded := msg, channelClosed := true, returned := some (WriteErr.netErr false) }
  | some (WriteErr.other c) =>
    { forwarded := msg, channelClosed := true, returned := some (WriteErr.other c) }

/-- The hop-by-hop header names dropped by `copyResponseHeader`: the keys
of the `hopHeaders` map in `server.go`, in canonical Go form. -/
def hopHeaders : List String :=
  ["Connection", "Proxy-Connection", "Keep-Alive", "Proxy-Authenticate",
   "Proxy-Authorization", "Te", "Trailer", "Transfer-Encoding", "Upgrade",
   "Content-Length"]

/-- A header collection: an ordered list of key/value pairs with
canonical keys. -/
abbrev Header := List (String × String)

/-- `copyResponseHeader` from `server.go`: copy every upstream response
header pair whose key is not in `hopHeaders`. -/
def copyResponseHeader (respHeader : Header) : Header :=
  respHeader.filter (fun kv => !(memB kv.1 hopHeaders))

/-- Go `http.Header.Set k v`: drop previous values of `k`, then add
`k: v`. -/
def headerSet (h : Header) (k v : String) : Header :=
  h.filter (fun kv => !(kv.1 == k)) ++ [(k, v)]

/-- The response-header computation of the non-upgrade branch of
`wsHandler.ServeHTTP` (`server.go`) after a successful round trip: copy
the filtered upstream headers, then set `Content-Length` to the upstream
content length when it is known positive, otherwise declare chunked
transfer encoding. -/
def serveHTTPRespHeader (respHeader : Header) (contentLength : Int) : Header :=
  if contentLength > 0 then
    headerSet (copyResponseHeader respHeader) "Content-Length" (toString contentLength)
  else
    headerSet (copyResponseHeader respHeader) "Transfer-Encoding" "chunked"

/-- One tracked DNS query, `DnsQuery{sid, addr, host}` (`handler.go`);
the client UDP address is abstracted to a numeric identifier. -/
structure DnsQuery where
  sid : Nat
  addr : Nat
  host : String
deriving Repr, DecidableEq, Inhabited

/-- One ledger entry, `entry{sid, ts, q}` (`handler.go`); the expiry
`ts` is a time in seconds modeled as `Nat`. -/
structure Entry where
  sid : Nat
  ts : Nat
  q : DnsQuery
deriving Repr, DecidableEq, Inhabited

/-- The `transactionId → heap position` index `DnsProxy.indices`
(`map[int]int`), as a pointwise function. -/
abbrev IndexMap := Nat → Option Nat

/-- Go map assignment `m[k] = v`. -/
def IndexMap.set (m : IndexMap) (k v : Nat) : IndexMap :=
  fun t => if t = k then some v else m t

/-- Go map `delete(m, k)`. -/
def IndexMap.del (m : IndexMap) (k : Nat) : IndexMap :=
  fun t => if t = k then none else m t

/-- The mutable ledger state of `DnsProxy`: the heap slice `entries` and
the position index `indices`. -/
structure LedgerState where
  entries : List Entry
  indices : IndexMap

/-- `h.entries[i]`, with Go's out-of-range panic replaced by a default
element; every use below is guarded by bounds that hold in the modeled
control flow. -/
def entAt (l : List Entry) (i : Nat) : Entry := l.getD i default

/-- `DnsProxy.Less i j`: `h.entries[i].ts.Before(h.entries[j].ts)`. -/
def lessAt (st : LedgerState) (i j : Nat) : Bool :=
  (entAt st.entries i).ts < (entAt st.entries j).ts

/-- `DnsProxy.Swap i j`: swap the two entries, then write the new
position of each swapped entry into the index (the write for position
`j` happens last, as in the Go source). -/
def swapSt (st : LedgerState) (i j : Nat) : LedgerState :=
  { entries := (st.entries.set i (entAt st.entries j)).set j (entAt st.entries i),
    indices := (st.indices.set (entAt st.entries j).sid i).set (entAt st.entries i).sid j }

/-- `container/heap`'s `up` loop, with an explicit fuel argument that is
always sufficient because the position strictly decreases (`siftUp`
below supplies `j+1`).  One step: stop at the root or when the parent is
not larger; otherwise swap with the parent and continue there. -/
def siftUpF : Nat → LedgerState → Nat → LedgerState
  | 0, st, _ => st
  | fuel+1, st, j =>
    if j = 0 then st
    else if lessAt st j ((j-1)/2) then siftUpF fuel (swapSt st ((j-1)/2) j) ((j-1)/2)
    else st

/-- `up(h, j)` from `container/heap`. -/
def siftUp (st : LedgerState) (j : Nat) : LedgerState := siftUpF (j+1) st j

/-- The child-selection step of `container/heap`'s `down` loop: the left
child `2*i+1`, or the right child `2*i+2` when it is within range `n`
and smaller. -/
def childSel (st : LedgerState) (i n : Nat) : Nat :=
  if 2*i+2 < n && lessAt st (2*i+2) (2*i+1) then 2*i+2 else 2*i+1

/-- `container/heap`'s `down` loop with fuel (the position strictly
increases and stays below `n`, so fuel `n` suffices); returns the final
position, from which Go's `down` computes its `i > i0` result.  One
step: find the smaller child within range `n`; stop if it is not
smaller; otherwise swap and continue there. -/
def siftDownF : Nat → LedgerState → Nat → Nat → LedgerState × Nat
  | 0, st, i, _ => (st, i)
  | fuel+1, st, i, n =>
    if 2*i+1 < n then
      if lessAt st (childSel st i n) i then
        siftDownF fuel (swapSt st i (childSel st i n)) (childSel st i n) n
      else (st, i)
    else (st, i)

/-- `down(h, i, n)` from `container/heap`. -/
def siftDown (st : LedgerState) (i n : Nat) : LedgerState × Nat := siftDownF n st i n

/-- `DnsProxy.Push` (the `heap.Interface` method): append, then index
the new last element at its position. -/
def pushM (st : LedgerState) (e : Entry) : LedgerState :=
  { entries := st.entries ++ [e],
    indices := st.indices.set e.sid ((st.entries ++ [e]).length - 1) }

/-- `DnsProxy.Pop` (the `heap.Interface` method): remove and return the
last element, deleting its id from the index. -/
def popM (st : LedgerState) : Entry × LedgerState :=
  (entAt st.entries (st.entries.length - 1),
   { entries := st.entries.dropLast,
     indices := st.indices.del (entAt st.entries (st.entries.length - 1)).sid })

/-- `heap.Push`: the interface `Push` followed by `up` from the last
position. -/
def heapPushGo (st : LedgerState) (e : Entry) : LedgerState :=
  siftUp (pushM st e) ((pushM st e).entries.length - 1)

/-- `heap.Pop`: swap the root with the last element, sift the new root
down within the shortened range, then the interface `Pop`. -/
def heapPopGo (st : LedgerState) : Entry × LedgerState :=
  popM (siftDown (swapSt st 0 (st.entries.length - 1)) 0 (st.entries.length - 1)).1

/-- `heap.Remove i`: when `i` is not the last position, swap it with the
last, sift down in the shortened range, and sift up when the element did
not move down; finally the interface `Pop`. -/
def heapRemoveGo (st : LedgerState) (i : Nat) : Entry × LedgerState :=
  if i = st.entries.length - 1 then popM st
  else
    popM
      (if (siftDown (swapSt st i (st.entries.length - 1)) i (st.entries.length - 1)).2 > i then
        (siftDown (swapSt st i (st.entries.length - 1)) i (st.entries.length - 1)).1
      else
        siftUp (siftDown (swapSt st i (st.entries.length - 1)) i (st.entries.length - 1)).1 i)

/-- `DnsProxy.addQuery`: `heap.Push` of a new entry whose expiry is ten
seconds after `now` (`time.Now().Add(time.Second * 10)`), keyed by the
query's transaction id. -/
def addQuery (now : Nat) (q : DnsQuery) (st : LedgerState) : LedgerState :=
  heapPushGo st { sid := q.sid, ts := now + 10, q := q }

/-- `DnsProxy.removeQuery`: when the index knows the id, `heap.Remove`
that position and return the stored query; otherwise return nothing and
leave the state untouched. -/
def removeQuery (sid : Nat) (st : LedgerState) : Option DnsQuery × LedgerState :=
  match st.indices sid with
  | some idx => (some (heapRemoveGo st idx).1.q, (heapRemoveGo st idx).2)
  | none => (none, st)

/-- The empty ledger, as initialized by `newDnsProxy`. -/
def emptyLedger : LedgerState := { entries := [], indices := fun _ => none }

/-- Raw bytes of a UDP datagram (each value is below 256 for genuine
packets). -/
abbrev Bytes := List Nat

/-- Go `string(bs)` for a byte slice: each byte becomes one character
(faithful for ASCII bytes, the case relevant to hostnames). -/
def bytesToStr (bs : Bytes) : String := String.mk (bs.map Char.ofNat)

/-- The QNAME walk inside `DnsProxy.hostFromMsg`, with fuel (the offset
strictly increases, so the wrapper's `msg.length + 1` is always enough).
`none` models a Go panic: reading `msg[offset]` out of range, a label
length byte with the top bit set (negative `int8`, giving an inverted
slice), or a label slice extending past the end of the message.  A zero
length byte ends the walk; otherwise the label bytes and a dot are
appended and the walk continues after the label. -/
def walkLabelsF : Nat → Bytes → Nat → Option String
  | 0, _, _ => none
  | fuel+1, msg, offset =>
    if offset < msg.length then
      if msg.getD offset 0 = 0 then some ""
      else if 128 ≤ msg.getD offset 0 then none
      else if offset + 1 + msg.getD offset 0 ≤ msg.length then
        match walkLabelsF fuel msg (offset + 1 + msg.getD offset 0) with
        | none => none
        | some rest =>
          some (bytesToStr ((msg.drop (offset+1)).take (msg.getD offset 0)) ++ "." ++ rest)
      else none
    else none

/-- The label walk of `hostFromMsg`, starting at a given offset. -/
def walkLabels (msg : Bytes) (offset : Nat) : Option String :=
  walkLabelsF (msg.length + 1) msg offset

/-- `DnsProxy.hostFromMsg`: read the question-count byte `msg[5]` (a
panic when the datagram is shorter than 6 bytes); when it equals 1, walk
the QNAME labels from offset 12; any other question count yields the
empty hostname. -/
def hostFromMsg (msg : Bytes) : Option String :=
  if 5 < msg.length then
    if msg.getD 5 0 = 1 then walkLabels msg 12 else some ""
  else none

/-- The parse-and-classify step of `DnsProxy.handleUDP` for one inbound
datagram: read the big-endian transaction id from bytes 0-1 (a panic
when the datagram is shorter than 2 bytes), decode the hostname, and
classify it against the match table.  `none` models a panic, which ends
the client-facing read loop and the process; `some (qid, host, hijack)`
carries the values `handleUDP` goes on to use. -/
def classifyUDP (srv : WsServer) (msg : Bytes) : Option (Nat × String × Bool) :=
  if 2 ≤ msg.length then
    match hostFromMsg msg with
    | some host => some (msg.getD 0 0 * 256 + msg.getD 1 0, host, isReverse srv host)
    | none => none
  else none

/-- The fixed answer template `Answer` of `handler.go`: type A (0x0001),
class IN (0x0001), TTL 0xffffffff, RDLENGTH 4, and a placeholder
address 127.0.0.1 that `hackDns` strips and replaces. -/
def Answer : Bytes := [0, 1, 0, 1, 255, 255, 255, 255, 0, 4, 127, 0, 0, 1]

/-- `DnsProxy.hackDns`: mutate the query into a response in place — flag
bytes 2 and 3 become 129 and 128, the low answer-count byte 7 becomes
1 — then append a copy of the QNAME bytes `msg[12 : 12+1+len(host)]`,
the answer template without its 4 placeholder address bytes, and the
4 target address bytes (`net.ParseIP(target).To4()` is modeled by the
4-byte list `target`). -/
def hackDns (msg : Bytes) (host : String) (target : Bytes) : Bytes :=
  ((msg.set 2 129).set 3 128).set 7 1
    ++ ((((msg.set 2 129).set 3 128).set 7 1).drop 12).take (1 + goLen host)
    ++ Answer.take (Answer.length - 4)
    ++ target

/-- A QNAME wire encoding: each label preceded by its length byte,
terminated by a zero byte. -/
def encodeLabels : List Bytes → Bytes
  | [] => [0]
  | l :: ls => l.length :: (l ++ encodeLabels ls)

/-- The dotted rendering `hostFromMsg` produces: every label followed by
one dot (so `www example com` renders as `"www.example.com."`). -/
def dottedName : List Bytes → String
  | [] => ""
  | l :: ls => bytesToStr l ++ "." ++ dottedName ls

/-- Index consistency (the spec's `side index maps transactionId → heap
position` invariant): `indices` sends the sid of the entry at every heap
position to exactly that position, and every mapping in `indices` points
at an in-range entry carrying that sid.  It forces live sids to be
pairwise distinct. -/
def Consistent (st : LedgerState) : Prop :=
  (∀ i, i < st.entries.length → st.indices (entAt st.entries i).sid = some i) ∧
  (∀ s i, st.indices s = some i → i < st.entries.length ∧ (entAt st.entries i).sid = s)

/-- Some entry with the given transaction id is live in the heap slice. -/
def sidMem (s : Nat) (l : List Entry) : Prop :=
  ∃ k, k < l.length ∧ (entAt l k).sid = s

/-- The association of live transaction ids to their stored queries (the
abstract contents of the ledger, used to state claim C5). -/
abbrev QueryMap := List (Nat × DnsQuery)

/-- First-match lookup in a `QueryMap`. -/
def lookupQ (s : Nat) : QueryMap → Option DnsQuery
  | [] => none
  | p :: ps => if p.1 = s then some p.2 else lookupQ s ps

/-- Removal of an id from a `QueryMap`. -/
def eraseKey (s : Nat) (M : QueryMap) : QueryMap :=
  M.filter (fun p => !(p.1 == s))

/-- The refinement relation between a `QueryMap` and a ledger state: the
state is index-consistent, every live entry's id/query pair is recorded
in the map, and every recorded id is live. -/
def InvL (M : QueryMap) (st : LedgerState) : Prop :=
  Consistent st ∧
  (∀ e ∈ st.entries, (e.sid, e.q) ∈ M) ∧
  (∀ p ∈ M, sidMem p.1 st.entries)

/-- A sequence of `addQuery` calls, each with its own insertion time. -/
def addAll : List (Nat × DnsQuery) → LedgerState → LedgerState
  | [], st => st
  | (t, q) :: rest, st => addAll rest (addQuery t q st)

/-- A sequence of `removeQuery` calls by id; returns the list of results
in order, and the final state. -/
def removeAll : List Nat → LedgerState → List (Option DnsQuery) × LedgerState
  | [], st => ([], st)
  | s :: rest, st =>
    ((removeQuery s st).1 :: (removeAll rest (removeQuery s st).2).1,
     (removeAll rest (removeQuery s st).2).2)

/-- The reference results of a removal sequence against a `QueryMap`:
each id yields the query stored under it (and is then erased, so a
second removal of the same id yields `none`). -/
def expectedOuts : QueryMap → List Nat → List (Option DnsQuery)
  | _, [] => []
  | M, s :: rest => lookupQ s M :: expectedOuts (eraseKey s M) rest

/-- One pass of `DnsProxy.updateTask` after a wake at time `now`: a loop
bounded by the initial `h.Len()` that pops the root, discards it and
deletes its id from the index when it is expired (`now.After(entry.ts)`,
strict), or pushes it back and stops at the first non-expired root. -/
def updateLoop (now : Nat) : Nat → LedgerState → LedgerState
  | 0, st => st
  | k+1, st =>
    if now > (heapPopGo st).1.ts then
      updateLoop now k
        { entries := (heapPopGo st).2.entries,
          indices := (heapPopGo st).2.indices.del (heapPopGo st).1.sid }
    else heapPushGo (heapPopGo st).2 (heapPopGo st).1

/-- A full wake of `updateTask`: run the pass, then re-arm the timer for
`h.entries[0].ts.Sub(now)` when the heap is non-empty (`none` when it is
empty and no new timer is armed). -/
def updatePass (now : Nat) (st : LedgerState) : LedgerState × Option Nat :=
  (updateLoop now st.entries.length st,
   if 0 < (updateLoop now st.entries.length st).entries.length then
     some ((entAt (updateLoop now st.entries.length st).entries 0).ts - now)
   else none)

/-- The min-heap order on expiries within the first `n` positions: every
non-root position's parent is not later. -/
def HeapOrdN (l : List Entry) (n : Nat) : Prop :=
  ∀ j, j < n → 0 < j → (entAt l ((j-1)/2)).ts ≤ (entAt l j).ts

/-- The min-heap order on the whole slice, as maintained by
`container/heap` between operations. -/
def HeapOrd (l : List Entry) : Prop := HeapOrdN l l.length

theorem memB_eq_true_of_mem {x : String} {l : List String} (h : x ∈ l) :
    memB x l = true := by
  induction l with
  | nil => cases h
  | cons y ys ih =>
    rcases List.mem_cons.mp h with rfl | hys
    · simp [memB]
    · simp [memB, ih hys]

theorem parseLine_exact_subset (s : WsServer) (dns : String) :
    s.reverseUrlMap ⊆ (parseLine s dns).reverseUrlMap := by
  unfold parseLine
  split <;> [skip; exact fun a ha => ha]
  split
  · exact fun a ha => ha
  · exact fun a ha => List.mem_append_left _ ha

theorem parseLine_wild_subset (s : WsServer) (dns : String) :
    s.reversePrefixMap ⊆ (parseLine s dns).reversePrefixMap := by
  unfold parseLine
  split <;> [skip; exact fun a ha => ha]
  split
  · exact fun a ha => List.mem_append_left _ ha
  · exact fun a ha => ha

theorem parseDNS_foldl_wild_subset (lines : List String) (acc : WsServer) :
    acc.reversePrefixMap ⊆ (lines.foldl parseLine acc).reversePrefixMap := by
  induction lines generalizing acc with
  | nil => exact fun a ha => ha
  | cons dns rest ih =>
    intro a ha
    exact ih (parseLine acc dns) (parseLine_wild_subset acc dns ha)

/-- A wildcard line `*.suffix` (longer than two bytes) puts `suffix` into
the wildcard set. -/
theorem parseDNS_wild_mem (lines : List String) (suffix : String)
    (hmem : String.mk ('*' :: '.' :: suffix.data) ∈ lines)
    (hlen : goLen (String.mk ('*' :: '.' :: suffix.data)) > 2) :
    suffix ∈ (parseDNS lines).reversePrefixMap := by
  unfold parseDNS
  generalize hacc : (⟨[], []⟩ : WsServer) = acc
  clear hacc
  induction lines generalizing acc with
  | nil => cases hmem
  | cons dns rest ih =>
    rcases List.mem_cons.mp hmem with rfl | hrest
    · refine parseDNS_foldl_wild_subset rest _ ?_
      unfold parseLine
      rw [if_pos hlen, if_pos (by simp)]
      simp
    · exact ih hrest _

theorem stripDot_eq_self {h : String} (hd : h.data.getLast? ≠ some '.') :
    stripDot h = h := by
  unfold stripDot
  split
  · exact absurd (by assumption) hd
  · rfl

theorem string_append_data (a b : String) : (a ++ b).data = a.data ++ b.data := rfl

theorem stripDot_append_dot (h : String) : stripDot (h ++ ".") = h := by
  unfold stripDot
  rw [string_append_data]
  have hlast : (h.data ++ ".".data).getLast? = some '.' := List.getLast?_concat _
  rw [hlast]
  rw [show (".".data : List Char) = ['.'] from rfl, List.dropLast_concat]
  rfl

theorem wildLoop_suffix_two (pm : List String) (a b c : String)
    (hm : memB (joinDots [b, c]) pm = true) :
    wildLoop pm [a, b, c] = true := by
  simp only [wildLoop, hm]
  simp

/-- C1 (counterexample): with the single hosts line `*.example.com`
(so the exact set is empty), `isReverse "example.com"` is `true`,
contradicting the claim that `example.com` itself is not matched unless
separately listed: the wildcard loop tests the full host against the
wildcard-suffix set before dropping any label. -/
theorem isReverse_wildcard_counterexample :
    (parseDNS ["*.example.com"]).reverseUrlMap = [] ∧
    isReverse (parseDNS ["*.example.com"]) "example.com" = true := by
  decide

/-- C1 (amended): for every hosts file containing the wildcard line
`*.example.com`, the hosts `a.example.com`, `a.b.example.com` *and the
bare domain* `example.com` are all intercepted; the claim's exception for
the bare domain does not hold, because `isReverse` tests the full
hostname (before stripping any label) against the wildcard set. -/
theorem isReverse_wildcard_amended (lines : List String)
    (hw : "*.example.com" ∈ lines) :
    isReverse (parseDNS lines) "a.example.com" = true ∧
    isReverse (parseDNS lines) "a.b.example.com" = true ∧
    isReverse (parseDNS lines) "example.com" = true := by
  have hsuf : "example.com" ∈ (parseDNS lines).reversePrefixMap := by
    have he : String.mk ('*' :: '.' :: "example.com".data) = "*.example.com" := by decide
    refine parseDNS_wild_mem lines "example.com" ?_ (by decide)
    rw [he]; exact hw
  have hm2 : memB (joinDots ["example", "com"]) (parseDNS lines).reversePrefixMap = true := by
    rw [show joinDots ["example", "com"] = "example.com" from by decide]
    exact memB_eq_true_of_mem hsuf
  refine ⟨?_, ?_, ?_⟩
  · unfold isReverse
    split
    · rfl
    · rw [show splitDots (stripDot "a.example.com").data = ["a", "example", "com"] from by decide]
      exact wildLoop_suffix_two _ _ _ _ hm2
  · unfold isReverse
    split
    · rfl
    · rw [show splitDots (stripDot "a.b.example.com").data = ["a", "b", "example", "com"] from by decide]
      simp only [wildLoop]
      rw [show joinDots ["example", "com"] = "example.com" from by decide] at hm2 ⊢
      simp [hm2]
  · unfold isReverse
    split
    · rfl
    · rw [show splitDots (stripDot "example.com").data = ["example", "com"] from by decide]
      simp only [wildLoop, hm2]
      simp

/-- C1 (witness): the amended statement instantiated at the one-line
hosts file `*.example.com`. -/
theorem isReverse_wildcard_amended_witness :
    isReverse (parseDNS ["*.example.com"]) "a.example.com" = true ∧
    isReverse (parseDNS ["*.example.com"]) "a.b.example.com" = true ∧
    isReverse (parseDNS ["*.example.com"]) "example.com" = true :=
  isReverse_wildcard_amended ["*.example.com"] (by simp)

/-- C9 (counterexample): a hosts line that already ends in a dot, such as
`ab.`, is stored in the exact set but is *not* matched when queried
verbatim: the query is first stripped of its trailing dot and `ab` is not
in the set.  So "for every hostname in the exact set, isIntercepted
returns true" fails as stated. -/
theorem isReverse_exact_counterexample :
    "ab." ∈ (parseDNS ["ab."]).reverseUrlMap ∧
    isReverse (parseDNS ["ab."]) "ab." = false := by
  decide

/-- C9 (amended): every member of the exact set that does not itself end
in a dot is intercepted, and every exact-set member followed by one
trailing dot is intercepted (the input is normalized by stripping one
trailing dot before the lookup).  Members that end in a dot (possible,
since the hosts file is not normalized) are only matched with an extra
dot appended. -/
theorem isReverse_exact_amended (S : WsServer) (h : String)
    (hmem : h ∈ S.reverseUrlMap) :
    (h.data.getLast? ≠ some '.' → isReverse S h = true) ∧
    isReverse S (h ++ ".") = true := by
  constructor
  · intro hdot
    unfold isReverse
    rw [stripDot_eq_self hdot, memB_eq_true_of_mem hmem]
    rfl
  · unfold isReverse
    rw [stripDot_append_dot, memB_eq_true_of_mem hmem]
    rfl

/-- C9 (witness): the amended statement instantiated at the exact set
built from the one-line hosts file `abc.de`. -/
theorem isReverse_exact_amended_witness :
    ("abc.de".data.getLast? ≠ some '.' → isReverse (parseDNS ["abc.de"]) "abc.de" = true) ∧
    isReverse (parseDNS ["abc.de"]) ("abc.de" ++ ".") = true :=
  isReverse_exact_amended (parseDNS ["abc.de"]) "abc.de" (by decide)

/-- C8: for every inbound ping or pong control frame, the forwarding
handler leaves the direction's completion channel open exactly when the
forwarding write succeeded, failed with close-already-sent, or failed
with a temporary (transient) network error; every other non-nil write
error closes that direction's completion channel.  The forwarded frame
kind always equals the received kind. -/
theorem pf_close_iff (msg : CtlMsg) (err : Option WriteErr) :
    ((pf msg err).channelClosed = false ↔
      (err = none ∨ err = some WriteErr.closeSent ∨ err = some (WriteErr.netErr true))) ∧
    (pf msg err).forwarded = msg := by
  cases err with
  | none => simp [pf]
  | some e =>
    cases e with
    | closeSent => simp [pf]
    | netErr t => cases t <;> simp [pf]
    | other c => simp [pf]

theorem mem_of_memB_eq_true {x : String} {l : List String} (h : memB x l = true) :
    x ∈ l := by
  induction l with
  | nil => simp [memB] at h
  | cons y ys ih =>
    have h' : x = y ∨ memB x ys = true := by simpa [memB] using h
    rcases h' with rfl | hys
    · exact List.mem_cons_self x ys
    · exact List.mem_cons_of_mem y (ih hys)

theorem mem_copyResponseHeader {kv : String × String} {respHeader : Header}
    (h : kv ∈ copyResponseHeader respHeader) : kv ∈ respHeader ∧ kv.1 ∉ hopHeaders := by
  have h' := List.mem_filter.mp h
  refine ⟨h'.1, fun hmem => ?_⟩
  have := memB_eq_true_of_mem hmem
  simp [this] at h'

/-- C6: for every successfully round-tripped non-upgrade request, the
response headers written to the client contain none of the ten filtered
hop-by-hop headers as copied from upstream — the only pair whose key is
in the filtered list is the freshly computed `Content-Length` or
`Transfer-Encoding: chunked` — and the response carries either a
`Content-Length` equal to the upstream content length or a chunked
transfer declaration, never both. -/
theorem serveHTTP_headers_ok (respHeader : Header) (contentLength : Int) :
    (∀ kv ∈ serveHTTPRespHeader respHeader contentLength, kv.1 ∈ hopHeaders →
      kv = ("Content-Length", toString contentLength) ∨ kv = ("Transfer-Encoding", "chunked")) ∧
    (contentLength > 0 →
      ("Content-Length", toString contentLength) ∈ serveHTTPRespHeader respHeader contentLength ∧
      ∀ v, ("Transfer-Encoding", v) ∉ serveHTTPRespHeader respHeader contentLength) ∧
    (¬ contentLength > 0 →
      ("Transfer-Encoding", "chunked") ∈ serveHTTPRespHeader respHeader contentLength ∧
      ∀ v, ("Content-Length", v) ∉ serveHTTPRespHeader respHeader contentLength) := by
  unfold serveHTTPRespHeader
  by_cases hcl : contentLength > 0
  · rw [if_pos hcl]
    refine ⟨?_, fun _ => ⟨?_, ?_⟩, fun hn => absurd hcl hn⟩
    · intro kv hkv hhop
      rcases List.mem_append.mp hkv with hfil | hone
      · exact absurd hhop (mem_copyResponseHeader (List.mem_filter.mp hfil).1).2
      · exact Or.inl (by simpa using hone)
    · exact List.mem_append_right _ (by simp)
    · intro v hv
      rcases List.mem_append.mp hv with hfil | hone
      · have := mem_copyResponseHeader (List.mem_filter.mp hfil).1
        exact this.2 (by simp [hopHeaders])
      · simp at hone
  · rw [if_neg hcl]
    refine ⟨?_, fun hp => absurd hp hcl, fun _ => ⟨?_, ?_⟩⟩
    · intro kv hkv hhop
      rcases List.mem_append.mp hkv with hfil | hone
      · exact absurd hhop (mem_copyResponseHeader (List.mem_filter.mp hfil).1).2
      · exact Or.inr (by simpa using hone)
    · exact List.mem_append_right _ (by simp)
    · intro v hv
      rcases List.mem_append.mp hv with hfil | hone
      · have := mem_copyResponseHeader (List.mem_filter.mp hfil).1
        exact this.2 (by simp [hopHeaders])
      · simp at hone

/-- C6 (witness): the characterization instantiated at a concrete
upstream header set containing a hop-by-hop header, with a known
positive content length. -/
theorem serveHTTP_headers_ok_witness :
    ("Content-Length", toString (5 : Int)) ∈
      serveHTTPRespHeader [("Connection", "close"), ("X-A", "1")] 5 :=
  ((serveHTTP_headers_ok [("Connection", "close"), ("X-A", "1")] 5).2.1 (by decide)).1

/-- C10: removing a transaction id that has no live entry (the position
index does not map it) returns absent and leaves the ledger state — the
heap slice and the index — exactly unchanged. -/
theorem removeQuery_absent_noop (st : LedgerState) (sid : Nat)
    (h : st.indices sid = none) :
    removeQuery sid st = (none, st) := by
  unfold removeQuery
  rw [h]

/-- C10 (witness): removing id 3 from the empty ledger. -/
theorem removeQuery_absent_noop_witness :
    removeQuery 3 emptyLedger = (none, emptyLedger) :=
  removeQuery_absent_noop emptyLedger 3 rfl

theorem length_swapSt (st : LedgerState) (i j : Nat) :
    (swapSt st i j).entries.length = st.entries.length := by
  simp [swapSt]

theorem entAt_eq_getElem {l : List Entry} {k : Nat} (h : k < l.length) :
    entAt l k = l[k] := by
  simp [entAt, List.getD_eq_getElem?_getD, List.getElem?_eq_getElem h]

theorem mem_entAt {l : List Entry} {k : Nat} (h : k < l.length) : entAt l k ∈ l := by
  rw [entAt_eq_getElem h]
  exact List.getElem_mem h

theorem mem_iff_entAt {l : List Entry} {e : Entry} :
    e ∈ l ↔ ∃ k, k < l.length ∧ entAt l k = e := by
  rw [List.mem_iff_getElem]
  constructor
  · rintro ⟨k, hk, rfl⟩
    exact ⟨k, hk, entAt_eq_getElem hk⟩
  · rintro ⟨k, hk, he⟩
    exact ⟨k, hk, by rw [← entAt_eq_getElem hk, he]⟩

theorem entAt_swapSt (st : LedgerState) {i j : Nat} (hi : i < st.entries.length)
    (hj : j < st.entries.length) (k : Nat) :
    entAt (swapSt st i j).entries k =
      if k = j then entAt st.entries i
      else if k = i then entAt st.entries j
      else entAt st.entries k := by
  show entAt ((st.entries.set i (entAt st.entries j)).set j (entAt st.entries i)) k = _
  by_cases hkj : k = j
  · subst hkj
    rw [if_pos rfl]
    unfold entAt
    rw [List.getD_eq_getElem?_getD, List.getElem?_set_self (by simpa using hj)]
    rfl
  · rw [if_neg hkj]
    by_cases hki : k = i
    · subst hki
      rw [if_pos rfl]
      unfold entAt
      rw [List.getD_eq_getElem?_getD, List.getElem?_set_ne (fun h => hkj h.symm),
        List.getElem?_set_self hi]
      rfl
    · rw [if_neg hki]
      unfold entAt
      rw [List.getD_eq_getElem?_getD, List.getElem?_set_ne (fun h => hkj h.symm),
        List.getElem?_set_ne (fun h => hki h.symm), List.getD_eq_getElem?_getD]

theorem indices_swapSt (st : LedgerState) (i j : Nat) (s : Nat) :
    (swapSt st i j).indices s =
      if s = (entAt st.entries i).sid then some j
      else if s = (entAt st.entries j).sid then some i
      else st.indices s := by
  simp [swapSt, IndexMap.set]

theorem mem_swapSt_iff (st : LedgerState) {i j : Nat} (hi : i < st.entries.length)
    (hj : j < st.entries.length) (e : Entry) :
    e ∈ (swapSt st i j).entries ↔ e ∈ st.entries := by
  constructor
  · intro he
    rcases mem_iff_entAt.mp he with ⟨k, hk, hke⟩
    rw [length_swapSt] at hk
    rw [entAt_swapSt st hi hj k] at hke
    split at hke
    · exact hke ▸ mem_entAt hi
    · split at hke
      · exact hke ▸ mem_entAt hj
      · exact hke ▸ mem_entAt hk
  · intro he
    rcases mem_iff_entAt.mp he with ⟨k, hk, hke⟩
    by_cases hki : k = i
    · refine mem_iff_entAt.mpr ⟨j, by rw [length_swapSt]; exact hj, ?_⟩
      rw [entAt_swapSt st hi hj j, if_pos rfl, ← hki, hke]
    · by_cases hkj : k = j
      · refine mem_iff_entAt.mpr ⟨i, by rw [length_swapSt]; exact hi, ?_⟩
        rw [entAt_swapSt st hi hj i]
        by_cases hij : i = j
        · rw [if_pos hij, hij, ← hkj, hke]
        · rw [if_neg hij, if_pos rfl, ← hkj, hke]
      · refine mem_iff_entAt.mpr ⟨k, by rw [length_swapSt]; exact hk, ?_⟩
        rw [entAt_swapSt st hi hj k, if_neg hkj, if_neg hki, hke]

theorem siftUpF_length (fuel : Nat) : ∀ st j,
    (siftUpF fuel st j).entries.length = st.entries.length := by
  induction fuel with
  | zero => intro st j; rfl
  | succ fuel ih =>
    intro st j
    unfold siftUpF
    split
    · rfl
    · split
      · rw [ih, length_swapSt]
      · rfl

theorem parent_lt {j : Nat} (hj : j ≠ 0) : (j-1)/2 < j := by omega

theorem siftUpF_mem_iff (fuel : Nat) : ∀ st j, j < st.entries.length → ∀ e : Entry,
    (e ∈ (siftUpF fuel st j).entries ↔ e ∈ st.entries) := by
  induction fuel with
  | zero => intro st j _ e; rfl
  | succ fuel ih =>
    intro st j hj e
    unfold siftUpF
    split
    · rfl
    · split
      · rw [ih (swapSt st ((j-1)/2) j) ((j-1)/2)
          (by rw [length_swapSt]; exact lt_trans (parent_lt (by assumption)) hj)]
        exact mem_swapSt_iff st (lt_trans (parent_lt (by assumption)) hj) hj e
      · rfl

theorem siftUp_length (st : LedgerState) (j : Nat) :
    (siftUp st j).entries.length = st.entries.length :=
  siftUpF_length _ st j

theorem siftUp_mem_iff (st : LedgerState) {j : Nat} (hj : j < st.entries.length)
    (e : Entry) : e ∈ (siftUp st j).entries ↔ e ∈ st.entries :=
  siftUpF_mem_iff _ st j hj e

theorem pushM_length (st : LedgerState) (e : Entry) :
    (pushM st e).entries.length = st.entries.length + 1 := by
  simp [pushM]

theorem heapPushGo_length (st : LedgerState) (e : Entry) :
    (heapPushGo st e).entries.length = st.entries.length + 1 := by
  unfold heapPushGo
  rw [siftUp_length, pushM_length]

theorem mem_heapPushGo_iff (st : LedgerState) (e x : Entry) :
    x ∈ (heapPushGo st e).entries ↔ (x ∈ st.entries ∨ x = e) := by
  unfold heapPushGo
  rw [siftUp_mem_iff _ (by rw [pushM_length]; omega)]
  unfold pushM
  simp

/-- C2 (counterexample): two `addQuery` calls with the same transaction
id 5 (the first at time 0, the second at time 40) leave the heap holding
two live entries with id 5 — the old entry is not evicted, so the
claimed at-most-one-entry-per-id invariant does not hold of the code. -/
theorem addQuery_collision_counterexample :
    ((addQuery 40 ⟨5, 2, ""⟩ (addQuery 0 ⟨5, 1, ""⟩ emptyLedger)).entries.map Entry.sid)
      = [5, 5] := by
  decide

/-- C2 (amended): `addQuery` never evicts anything: it always grows the
heap by exactly one entry, keeps every previously live entry, and adds
an entry with the query's id and a ten-second expiry.  Consequently a
second query whose transaction id collides with a live entry results in
two live entries with that id (only the position index is overwritten,
last writer wins for the index alone). -/
theorem addQuery_no_eviction (now : Nat) (q : DnsQuery) (st : LedgerState) :
    (addQuery now q st).entries.length = st.entries.length + 1 ∧
    (∀ e, e ∈ st.entries → e ∈ (addQuery now q st).entries) ∧
    Entry.mk q.sid (now + 10) q ∈ (addQuery now q st).entries := by
  refine ⟨heapPushGo_length st _, ?_, ?_⟩
  · intro e he
    exact (mem_heapPushGo_iff st _ e).mpr (Or.inl he)
  · exact (mem_heapPushGo_iff st _ _).mpr (Or.inr rfl)

/-- C2 (witness): the amended statement instantiated at the colliding
pair of adds from the counterexample; the first entry is still live
after the second add. -/
theorem addQuery_no_eviction_witness :
    Entry.mk 5 10 ⟨5, 1, ""⟩ ∈
      (addQuery 40 ⟨5, 2, ""⟩ (addQuery 0 ⟨5, 1, ""⟩ emptyLedger)).entries :=
  (addQuery_no_eviction 40 ⟨5, 2, ""⟩ (addQuery 0 ⟨5, 1, ""⟩ emptyLedger)).2.1
    (Entry.mk 5 10 ⟨5, 1, ""⟩) (by decide)

theorem utf8Size_ascii {b : Nat} (hb : b < 128) : (Char.ofNat b).utf8Size = 1 := by
  have hv : b.isValidChar := Or.inl (by omega)
  rw [Char.ofNat, dif_pos hv]
  unfold Char.ofNatAux Char.utf8Size
  rw [if_pos]
  change (BitVec.ofNatLt b _ : BitVec 32) ≤ _
  rw [BitVec.le_def]
  simp [BitVec.toNat_ofNatLt]
  omega

theorem goLen_aux (cs : List Char) (n : Nat) :
    cs.foldl (fun acc c => acc + c.utf8Size) n = n + cs.foldl (fun acc c => acc + c.utf8Size) 0 := by
  induction cs generalizing n with
  | nil => simp
  | cons c cs ih =>
    simp only [List.foldl_cons, Nat.zero_add]
    rw [ih (n + c.utf8Size), ih c.utf8Size]
    omega

theorem goLen_append (a b : String) : goLen (a ++ b) = goLen a + goLen b := by
  unfold goLen
  rw [string_append_data, List.foldl_append, goLen_aux]

theorem foldl_utf8_map_ascii {l : Bytes} (h : ∀ b ∈ l, b < 128) :
    (l.map Char.ofNat).foldl (fun acc c => acc + c.utf8Size) 0 = l.length := by
  induction l with
  | nil => rfl
  | cons b bs ih =>
    simp only [List.map_cons, List.foldl_cons, Nat.zero_add]
    rw [goLen_aux, utf8Size_ascii (h b (by simp)), ih (fun x hx => h x (by simp [hx]))]
    rw [List.length_cons]
    omega

theorem goLen_bytesToStr {l : Bytes} (h : ∀ b ∈ l, b < 128) :
    goLen (bytesToStr l) = l.length := by
  show (l.map Char.ofNat).foldl (fun acc c => acc + c.utf8Size) 0 = l.length
  exact foldl_utf8_map_ascii h

theorem foldl_exact_goLen (lines : List String) : ∀ acc : WsServer,
    (∀ x ∈ acc.reverseUrlMap, goLen x > 2) →
    ∀ x ∈ (lines.foldl parseLine acc).reverseUrlMap, goLen x > 2 := by
  induction lines with
  | nil => intro acc hacc; exact hacc
  | cons dns rest ih =>
    intro acc hacc
    refine ih (parseLine acc dns) ?_
    intro x hx
    unfold parseLine at hx
    split at hx
    · split at hx
      · exact hacc x hx
      · rcases List.mem_append.mp hx with hl | hr
        · exact hacc x hl
        · simp at hr
          subst hr
          assumption
    · exact hacc x hx

theorem parseDNS_exact_goLen (lines : List String) :
    ∀ x ∈ (parseDNS lines).reverseUrlMap, goLen x > 2 :=
  foldl_exact_goLen lines ⟨[], []⟩ (by intro x hx; cases hx)

theorem isReverse_empty_false (lines : List String) :
    isReverse (parseDNS lines) "" = false := by
  unfold isReverse
  have h2 : memB (stripDot "") (parseDNS lines).reverseUrlMap = false := by
    cases hmb : memB (stripDot "") (parseDNS lines).reverseUrlMap with
    | false => rfl
    | true =>
      have := parseDNS_exact_goLen lines _ (mem_of_memB_eq_true hmb)
      rw [show stripDot "" = "" from rfl] at this
      exact absurd this (by decide)
  rw [h2]
  rfl

/-- C3 (counterexample): a one-byte client datagram makes the parse step
panic (`none`, modeling the Go panic on the out-of-range slice
`buf[0:2]`), so a malformed datagram does not merely affect one
datagram, it ends the client-facing read loop and with it the process;
the claim that parsing completes for arbitrary byte contents fails. -/
theorem classifyUDP_short_packet_counterexample :
    classifyUDP (parseDNS ["*.example.com"]) [0] = none := by
  decide

/-- C3 (amended): parsing and classification complete without crashing
for every datagram of at least 6 bytes whose question-count byte is not
1: the hostname decodes to the empty string, which is never in a match
table built by `parseDNS` (its entries are longer than two bytes), so
the packet is classified non-hijack and forwarded as-is.  Datagrams
shorter than 2 bytes (or 6 bytes, or whose label data runs out of
bounds) instead crash the process — the `including malformed ones`
universal of the original claim does not hold. -/
theorem classifyUDP_multiquestion_forward (lines : List String) (msg : Bytes)
    (hlen : 6 ≤ msg.length) (hcount : msg.getD 5 0 ≠ 1) :
    classifyUDP (parseDNS lines) msg =
      some (msg.getD 0 0 * 256 + msg.getD 1 0, "", false) := by
  have hh : hostFromMsg msg = some "" := by
    unfold hostFromMsg
    rw [if_pos (by omega : (5:Nat) < msg.length), if_neg hcount]
  unfold classifyUDP
  rw [if_pos (by omega : 2 ≤ msg.length), hh]
  simp [isReverse_empty_false lines]

/-- C3 (witness): the amended statement instantiated at a 12-byte
datagram whose question-count byte is 2. -/
theorem classifyUDP_multiquestion_forward_witness :
    classifyUDP (parseDNS ["*.example.com"]) [0, 1, 0, 0, 0, 2, 0, 0, 0, 0, 0, 0] =
      some (1, "", false) :=
  classifyUDP_multiquestion_forward ["*.example.com"]
    [0, 1, 0, 0, 0, 2, 0, 0, 0, 0, 0, 0] (by decide) (by decide)

theorem encodeLabels_length_pos (labels : List Bytes) : 0 < (encodeLabels labels).length := by
  cases labels <;> simp [encodeLabels]

theorem getD_of_drop {msg : Bytes} {offset x : Nat} {r : Bytes}
    (h : msg.drop offset = x :: r) : msg.getD offset 0 = x := by
  have h0 : (msg.drop offset)[0]? = some x := by rw [h]; simp
  rw [List.getElem?_drop] at h0
  simp only [List.getD_eq_getElem?_getD]
  simp only [Nat.add_zero] at h0
  rw [h0]
  rfl

theorem lt_length_of_drop_cons {msg : Bytes} {offset x : Nat} {r : Bytes}
    (h : msg.drop offset = x :: r) : offset < msg.length := by
  have hl := congrArg List.length h
  rw [List.length_drop, List.length_cons] at hl
  omega

theorem walkLabelsF_encode (labels : List Bytes) : ∀ (fuel offset : Nat) (msg tail : Bytes),
    msg.drop offset = encodeLabels labels ++ tail →
    (∀ l ∈ labels, 0 < l.length ∧ l.length < 128) →
    labels.length < fuel →
    walkLabelsF fuel msg offset = some (dottedName labels) := by
  induction labels with
  | nil =>
    intro fuel offset msg tail hdrop _ hfuel
    obtain ⟨fuel, rfl⟩ : ∃ f, fuel = f + 1 := ⟨fuel - 1, by omega⟩
    have hdrop' : msg.drop offset = 0 :: tail := by simpa [encodeLabels] using hdrop
    unfold walkLabelsF
    rw [if_pos (lt_length_of_drop_cons hdrop'), if_pos (getD_of_drop hdrop')]
    rfl
  | cons l ls ih =>
    intro fuel offset msg tail hdrop hgood hfuel
    obtain ⟨fuel, rfl⟩ : ∃ f, fuel = f + 1 := ⟨fuel - 1, by omega⟩
    have hdrop' : msg.drop offset = l.length :: (l ++ (encodeLabels ls ++ tail)) := by
      simpa [encodeLabels, List.append_assoc] using hdrop
    have hgl := hgood l (List.mem_cons_self _ _)
    have hoff := lt_length_of_drop_cons hdrop'
    have hgd := getD_of_drop hdrop'
    have hlen : msg.length - offset = 1 + (l.length + ((encodeLabels ls).length + tail.length)) := by
      have hh := congrArg List.length hdrop'
      rw [List.length_drop, List.length_cons, List.length_append, List.length_append] at hh
      omega
    have hpos := encodeLabels_length_pos ls
    have hstep : msg.drop (offset + 1) = l ++ (encodeLabels ls ++ tail) := by
      rw [← List.drop_drop, hdrop']
      rfl
    have hbound : offset + 1 + msg.getD offset 0 ≤ msg.length := by
      rw [hgd]; omega
    have htake : (msg.drop (offset + 1)).take (msg.getD offset 0) = l := by
      rw [hgd, hstep]
      exact List.take_left l _
    have hrec : walkLabelsF fuel msg (offset + 1 + msg.getD offset 0) = some (dottedName ls) := by
      rw [hgd]
      refine ih fuel (offset + 1 + l.length) msg tail ?_
        (fun x hx => hgood x (List.mem_cons_of_mem _ hx)) ?_
      · rw [show offset + 1 + l.length = (offset + 1) + l.length from rfl, ← List.drop_drop,
          hstep]
        exact List.drop_left l _
      · rw [List.length_cons] at hfuel
        omega
    unfold walkLabelsF
    rw [if_pos hoff, if_neg (by rw [hgd]; omega), if_neg (by rw [hgd]; omega),
      if_pos hbound, hrec, htake]
    rfl

theorem labels_length_lt_encode (labels : List Bytes) :
    labels.length < (encodeLabels labels).length := by
  induction labels with
  | nil => simp [encodeLabels]
  | cons l ls ih =>
    rw [List.length_cons]
    show ls.length + 1 < (l.length :: (l ++ encodeLabels ls)).length
    rw [List.length_cons, List.length_append]
    omega

theorem hostFromMsg_encode {msg tail : Bytes} {labels : List Bytes}
    (hdrop : msg.drop 12 = encodeLabels labels ++ tail)
    (hgood : ∀ l ∈ labels, 0 < l.length ∧ l.length < 128)
    (h5 : msg.getD 5 0 = 1) :
    hostFromMsg msg = some (dottedName labels) := by
  have hlen : msg.length - 12 = (encodeLabels labels).length + tail.length := by
    have hh := congrArg List.length hdrop
    rw [List.length_drop, List.length_append] at hh
    omega
  have hpos := encodeLabels_length_pos labels
  have hlab := labels_length_lt_encode labels
  unfold hostFromMsg walkLabels
  rw [if_pos (by omega : (5:Nat) < msg.length), if_pos h5]
  exact walkLabelsF_encode labels (msg.length + 1) 12 msg tail hdrop hgood (by omega)

theorem goLen_dottedName {labels : List Bytes}
    (h : ∀ l ∈ labels, ∀ b ∈ l, b < 128) :
    goLen (dottedName labels) + 1 = (encodeLabels labels).length := by
  induction labels with
  | nil => rfl
  | cons l ls ih =>
    show goLen (bytesToStr l ++ "." ++ dottedName ls) + 1 =
      (l.length :: (l ++ encodeLabels ls)).length
    rw [goLen_append, goLen_append, goLen_bytesToStr (h l (List.mem_cons_self _ _))]
    have ih' := ih (fun x hx => h x (List.mem_cons_of_mem _ hx))
    rw [List.length_cons, List.length_append]
    rw [show goLen "." = 1 from by decide]
    omega

theorem length_hackSets (msg : Bytes) :
    (((msg.set 2 129).set 3 128).set 7 1).length = msg.length := by
  simp

theorem drop12_hackSets (msg : Bytes) :
    (((msg.set 2 129).set 3 128).set 7 1).drop 12 = msg.drop 12 := by
  rw [List.drop_set, if_pos (by omega), List.drop_set, if_pos (by omega),
    List.drop_set, if_pos (by omega)]

theorem getD_append_left {a b : Bytes} {k : Nat} (h : k < a.length) :
    (a ++ b).getD k 0 = a.getD k 0 := by
  simp [List.getD_eq_getElem?_getD, List.getElem?_append_left h]

theorem getD_hackSets_ne (msg : Bytes) {k : Nat} (h2 : k ≠ 2) (h3 : k ≠ 3) (h7 : k ≠ 7) :
    (((msg.set 2 129).set 3 128).set 7 1).getD k 0 = msg.getD k 0 := by
  simp only [List.getD_eq_getElem?_getD]
  rw [List.getElem?_set_ne (fun h => h7 h.symm), List.getElem?_set_ne (fun h => h3 h.symm),
    List.getElem?_set_ne (fun h => h2 h.symm)]

theorem getD_hackSets_two (msg : Bytes) (h : 2 < msg.length) :
    (((msg.set 2 129).set 3 128).set 7 1).getD 2 0 = 129 := by
  simp only [List.getD_eq_getElem?_getD]
  rw [List.getElem?_set_ne (by omega : (7:Nat) ≠ 2), List.getElem?_set_ne (by omega : (3:Nat) ≠ 2),
    List.getElem?_set_self h]
  rfl

theorem getD_hackSets_three (msg : Bytes) (h : 3 < msg.length) :
    (((msg.set 2 129).set 3 128).set 7 1).getD 3 0 = 128 := by
  simp only [List.getD_eq_getElem?_getD]
  rw [List.getElem?_set_ne (by omega : (7:Nat) ≠ 3),
    List.getElem?_set_self (by simpa using h)]
  rfl

theorem getD_hackSets_seven (msg : Bytes) (h : 7 < msg.length) :
    (((msg.set 2 129).set 3 128).set 7 1).getD 7 0 = 1 := by
  simp only [List.getD_eq_getElem?_getD]
  rw [List.getElem?_set_self (by simpa using h)]
  rfl

theorem hackDns_eq (msg : Bytes) (host : String) (target : Bytes) :
    hackDns msg host target =
      ((msg.set 2 129).set 3 128).set 7 1 ++
        ((((((msg.set 2 129).set 3 128).set 7 1).drop 12).take (1 + goLen host)) ++
          (Answer.take (Answer.length - 4) ++ target)) := by
  unfold hackDns
  simp [List.append_assoc]

/-- C4 (counterexample): for a concrete intercepted single-question
query for `abc.de` (transaction id 0x1234), the produced hijack response
does *not* have the authoritative flag set: flag byte 2 is written as
129 = 0x81, whose AA bit (bit 2) is clear — the flags are response +
recursion-desired (and byte 3 = 0x80 adds recursion-available).  The
response bit (bit 7) is set.  This refutes the claim's `response and
authoritative flags set`. -/
theorem hackDns_not_authoritative_counterexample :
    hostFromMsg [18, 52, 1, 0, 0, 1, 0, 0, 0, 0, 0, 0,
        3, 97, 98, 99, 2, 100, 101, 0, 0, 1, 0, 1] = some "abc.de." ∧
    isReverse (parseDNS ["abc.de"]) "abc.de." = true ∧
    ((hackDns [18, 52, 1, 0, 0, 1, 0, 0, 0, 0, 0, 0,
        3, 97, 98, 99, 2, 100, 101, 0, 0, 1, 0, 1] "abc.de." [127, 0, 0, 2]).getD 2 0).testBit 2
      = false ∧
    ((hackDns [18, 52, 1, 0, 0, 1, 0, 0, 0, 0, 0, 0,
        3, 97, 98, 99, 2, 100, 101, 0, 0, 1, 0, 1] "abc.de." [127, 0, 0, 2]).getD 2 0).testBit 7
      = true := by
  decide

/-- C4 (amended): for every single-question query (question-count byte
equal to 1, QNAME a well-formed sequence of nonempty ASCII labels
starting at offset 12), the hijack response equals the original message
with flag bytes 2,3 set to 129,128 — so the response flag (bit 7) is
set but the authoritative flag (bit 2) is *clear* — the low
answer-count byte set to 1 (the high byte 6 is untouched, so the count
is 1 for standard queries whose byte 6 is 0), every other byte of the
original message unchanged (in particular the whole question section),
and with the following bytes appended: a copy of the QNAME, then type A
(0,1), class IN (0,1), TTL 0xffffffff (255,255,255,255), RDLENGTH 4
(0,4), then the 4 configured hijack target address bytes. -/
theorem hackDns_amended (msg tail target : Bytes) (labels : List Bytes)
    (hdrop : msg.drop 12 = encodeLabels labels ++ tail)
    (hgood : ∀ l ∈ labels, 0 < l.length ∧ l.length < 128 ∧ ∀ b ∈ l, b < 128)
    (h5 : msg.getD 5 0 = 1) :
    hostFromMsg msg = some (dottedName labels) ∧
    (hackDns msg (dottedName labels) target).getD 2 0 = 129 ∧
    (hackDns msg (dottedName labels) target).getD 3 0 = 128 ∧
    ((hackDns msg (dottedName labels) target).getD 2 0).testBit 7 = true ∧
    ((hackDns msg (dottedName labels) target).getD 2 0).testBit 2 = false ∧
    (hackDns msg (dottedName labels) target).getD 7 0 = 1 ∧
    (hackDns msg (dottedName labels) target).getD 6 0 = msg.getD 6 0 ∧
    (∀ k, k < msg.length → k ≠ 2 → k ≠ 3 → k ≠ 7 →
      (hackDns msg (dottedName labels) target).getD k 0 = msg.getD k 0) ∧
    (hackDns msg (dottedName labels) target).drop msg.length =
      encodeLabels labels ++ [0, 1, 0, 1, 255, 255, 255, 255, 0, 4] ++ target ∧
    (hackDns msg (dottedName labels) target).length =
      msg.length + (encodeLabels labels).length + 10 + target.length := by
  have hlen : msg.length - 12 = (encodeLabels labels).length + tail.length := by
    have hh := congrArg List.length hdrop
    rw [List.length_drop, List.length_append] at hh
    omega
  have hpos := encodeLabels_length_pos labels
  have h13 : 13 ≤ msg.length := by omega
  have hq : (encodeLabels labels).length = 1 + goLen (dottedName labels) := by
    have := @goLen_dottedName labels (fun l hl => (hgood l hl).2.2)
    omega
  have hslice :
      ((((msg.set 2 129).set 3 128).set 7 1).drop 12).take (1 + goLen (dottedName labels)) =
        encodeLabels labels := by
    rw [drop12_hackSets, hdrop]
    exact List.take_left' hq
  have hlen' := length_hackSets msg
  refine ⟨hostFromMsg_encode hdrop (fun l hl => ⟨(hgood l hl).1, (hgood l hl).2.1⟩) h5,
    ?_, ?_, ?_, ?_, ?_, ?_, ?_, ?_, ?_⟩
  · rw [hackDns_eq, getD_append_left (by omega), getD_hackSets_two msg (by omega)]
  · rw [hackDns_eq, getD_append_left (by omega), getD_hackSets_three msg (by omega)]
  · rw [hackDns_eq, getD_append_left (by omega), getD_hackSets_two msg (by omega)]
    decide
  · rw [hackDns_eq, getD_append_left (by omega), getD_hackSets_two msg (by omega)]
    decide
  · rw [hackDns_eq, getD_append_left (by omega), getD_hackSets_seven msg (by omega)]
  · rw [hackDns_eq, getD_append_left (by omega),
      getD_hackSets_ne msg (by omega) (by omega) (by omega)]
  · intro k hk hk2 hk3 hk7
    rw [hackDns_eq, getD_append_left (by omega), getD_hackSets_ne msg hk2 hk3 hk7]
  · rw [hackDns_eq, List.drop_left' hlen', hslice]
    rw [show Answer.take (Answer.length - 4) = [0, 1, 0, 1, 255, 255, 255, 255, 0, 4] from by decide]
    simp [List.append_assoc]
  · rw [hackDns_eq]
    simp only [List.length_append, hlen', hslice]
    rw [show (Answer.take (Answer.length - 4)).length = 10 from by decide]
    omega

/-- C4 (witness): the amended statement instantiated at the concrete
query for `abc.de` with hijack target 127.0.0.2: the appended bytes are
the QNAME copy, the type-A class-IN TTL RDLENGTH template, and the
target address. -/
theorem hackDns_amended_witness :
    (hackDns [18, 52, 1, 0, 0, 1, 0, 0, 0, 0, 0, 0,
        3, 97, 98, 99, 2, 100, 101, 0, 0, 1, 0, 1]
      (dottedName [[97, 98, 99], [100, 101]]) [127, 0, 0, 2]).drop 24 =
      encodeLabels [[97, 98, 99], [100, 101]] ++
        [0, 1, 0, 1, 255, 255, 255, 255, 0, 4] ++ [127, 0, 0, 2] :=
  (hackDns_amended [18, 52, 1, 0, 0, 1, 0, 0, 0, 0, 0, 0,
      3, 97, 98, 99, 2, 100, 101, 0, 0, 1, 0, 1] [0, 1, 0, 1] [127, 0, 0, 2]
      [[97, 98, 99], [100, 101]] (by decide) (by decide) (by decide)).2.2.2.2.2.2.2.2.1

theorem sidMem_iff_exists_mem {s : Nat} {l : List Entry} :
    sidMem s l ↔ ∃ e, e ∈ l ∧ e.sid = s := by
  constructor
  · rintro ⟨k, hk, hsk⟩
    exact ⟨entAt l k, mem_entAt hk, hsk⟩
  · rintro ⟨e, he, hes⟩
    rcases mem_iff_entAt.mp he with ⟨k, hk, hke⟩
    exact ⟨k, hk, by rw [hke, hes]⟩

theorem consistent_sid_inj {st : LedgerState} (hc : Consistent st) {k m : Nat}
    (hk : k < st.entries.length) (hm : m < st.entries.length)
    (h : (entAt st.entries k).sid = (entAt st.entries m).sid) : k = m := by
  have h1 := hc.1 k hk
  have h2 := hc.1 m hm
  rw [h, h2] at h1
  exact (Option.some_inj.mp h1).symm

theorem not_sidMem_of_indices_none {st : LedgerState} (hc : Consistent st) {s : Nat}
    (hnone : st.indices s = none) : ¬ sidMem s st.entries := by
  rintro ⟨k, hk, hsk⟩
  have := hc.1 k hk
  rw [hsk, hnone] at this
  cases this

theorem entAt_swapSt_other (st : LedgerState) {i j k : Nat} (hki : k ≠ i) (hkj : k ≠ j) :
    entAt (swapSt st i j).entries k = entAt st.entries k := by
  show entAt ((st.entries.set i (entAt st.entries j)).set j (entAt st.entries i)) k = _
  unfold entAt
  rw [List.getD_eq_getElem?_getD, List.getElem?_set_ne (fun h => hkj h.symm),
    List.getElem?_set_ne (fun h => hki h.symm), List.getD_eq_getElem?_getD]

theorem swapSt_consistent {st : LedgerState} (hc : Consistent st) {i j : Nat}
    (hi : i < st.entries.length) (hj : j < st.entries.length) :
    Consistent (swapSt st i j) := by
  constructor
  · intro k hk
    rw [length_swapSt] at hk
    rw [entAt_swapSt st hi hj k, indices_swapSt]
    by_cases hkj : k = j
    · subst hkj
      rw [if_pos rfl, if_pos rfl]
    · rw [if_neg hkj]
      by_cases hki : k = i
      · subst hki
        rw [if_pos rfl]
        rw [if_neg (fun hBA => hkj (consistent_sid_inj hc hj hi hBA ▸ rfl))]
        · rw [if_pos rfl]
      · rw [if_neg hki]
        rw [if_neg (fun hh => hki (consistent_sid_inj hc hk hi hh)),
          if_neg (fun hh => hkj (consistent_sid_inj hc hk hj hh))]
        exact hc.1 k hk
  · intro s m hm
    rw [indices_swapSt] at hm
    rw [length_swapSt]
    by_cases hsA : s = (entAt st.entries i).sid
    · rw [if_pos hsA] at hm
      obtain rfl : j = m := Option.some_inj.mp hm
      refine ⟨hj, ?_⟩
      rw [entAt_swapSt st hi hj j, if_pos rfl, hsA]
    · rw [if_neg hsA] at hm
      by_cases hsB : s = (entAt st.entries j).sid
      · rw [if_pos hsB] at hm
        obtain rfl : i = m := Option.some_inj.mp hm
        by_cases hij : i = j
        · exact absurd (hij ▸ hsB) hsA
        · refine ⟨hi, ?_⟩
          rw [entAt_swapSt st hi hj i, if_neg hij, if_pos rfl, hsB]
      · rw [if_neg hsB] at hm
        obtain ⟨hmlen, hmsid⟩ := hc.2 s m hm
        have hmj : m ≠ j := fun hh => hsB (by rw [← hmsid, hh])
        have hmi : m ≠ i := fun hh => hsA (by rw [← hmsid, hh])
        refine ⟨hmlen, ?_⟩
        rw [entAt_swapSt st hi hj m, if_neg hmj, if_neg hmi]
        exact hmsid

theorem siftUpF_consistent (fuel : Nat) : ∀ st j, Consistent st → j < st.entries.length →
    Consistent (siftUpF fuel st j) := by
  induction fuel with
  | zero => intro st j hc _; exact hc
  | succ fuel ih =>
    intro st j hc hj
    unfold siftUpF
    split
    · exact hc
    · split
      · refine ih _ _ (swapSt_consistent hc (lt_trans (parent_lt (by assumption)) hj) hj) ?_
        rw [length_swapSt]
        exact lt_trans (parent_lt (by assumption)) hj
      · exact hc

theorem siftUpF_entAt_gt (fuel : Nat) : ∀ st j k, j < k →
    entAt (siftUpF fuel st j).entries k = entAt st.entries k := by
  induction fuel with
  | zero => intro st j k _; rfl
  | succ fuel ih =>
    intro st j k hjk
    unfold siftUpF
    split
    · rfl
    · split
      · rw [ih _ _ _ (lt_trans (parent_lt (by assumption)) hjk)]
        exact entAt_swapSt_other st (by omega) (by omega)
      · rfl

theorem siftDownF_length (fuel : Nat) : ∀ st i n,
    (siftDownF fuel st i n).1.entries.length = st.entries.length := by
  induction fuel with
  | zero => intro st i n; rfl
  | succ fuel ih =>
    intro st i n
    unfold siftDownF
    split
    · split
      · rw [ih, length_swapSt]
      · rfl
    · rfl

theorem childSel_lt (st : LedgerState) {i n : Nat} (h : 2*i+1 < n) :
    childSel st i n < n := by
  unfold childSel
  split
  · next hcond =>
    have := (Bool.and_eq_true _ _).mp hcond
    exact of_decide_eq_true this.1
  · exact h

theorem childSel_gt (st : LedgerState) (i n : Nat) : i < childSel st i n := by
  unfold childSel
  split <;> omega

theorem siftDownF_consistent (fuel : Nat) : ∀ st i n, Consistent st →
    n ≤ st.entries.length → Consistent (siftDownF fuel st i n).1 := by
  induction fuel with
  | zero => intro st i n hc _; exact hc
  | succ fuel ih =>
    intro st i n hc hn
    unfold siftDownF
    split
    · next hchild =>
      split
      · refine ih _ _ _
          (swapSt_consistent hc (by omega) (lt_of_lt_of_le (childSel_lt st hchild) hn)) ?_
        rw [length_swapSt]
        exact hn
      · exact hc
    · exact hc

theorem siftDownF_entAt_ge (fuel : Nat) : ∀ st i n k, n ≤ k →
    entAt (siftDownF fuel st i n).1.entries k = entAt st.entries k := by
  induction fuel with
  | zero => intro st i n k _; rfl
  | succ fuel ih =>
    intro st i n k hk
    unfold siftDownF
    split
    · next hchild =>
      split
      · rw [ih _ _ _ _ hk]
        exact entAt_swapSt_other st (by omega) (by have := childSel_lt st hchild; omega)
      · rfl
    · rfl

theorem siftDownF_mem_iff (fuel : Nat) : ∀ st i n, n ≤ st.entries.length → ∀ e : Entry,
    (e ∈ (siftDownF fuel st i n).1.entries ↔ e ∈ st.entries) := by
  induction fuel with
  | zero => intro st i n _ e; rfl
  | succ fuel ih =>
    intro st i n hn e
    unfold siftDownF
    split
    · next hchild =>
      split
      · rw [ih _ _ _ (by rw [length_swapSt]; exact hn)]
        exact mem_swapSt_iff st (by omega) (lt_of_lt_of_le (childSel_lt st hchild) hn) e
      · rfl
    · rfl

theorem entAt_append_left {l : List Entry} {e : Entry} {k : Nat} (h : k < l.length) :
    entAt (l ++ [e]) k = entAt l k := by
  unfold entAt
  rw [List.getD_eq_getElem?_getD, List.getElem?_append_left h, List.getD_eq_getElem?_getD]

theorem entAt_concat_length (l : List Entry) (e : Entry) : entAt (l ++ [e]) l.length = e := by
  unfold entAt
  rw [List.getD_eq_getElem?_getD, List.getElem?_concat_length]
  rfl

theorem pushM_consistent {st : LedgerState} (hc : Consistent st) {e : Entry}
    (hfresh : st.indices e.sid = none) : Consistent (pushM st e) := by
  have hlen : (pushM st e).entries.length = st.entries.length + 1 := pushM_length st e
  have hind : ∀ s, (pushM st e).indices s =
      if s = e.sid then some st.entries.length else st.indices s := by
    intro s
    show ((st.indices.set e.sid ((st.entries ++ [e]).length - 1)) s) = _
    simp [IndexMap.set]
  constructor
  · intro k hk
    rw [hlen] at hk
    rcases Nat.lt_succ_iff_lt_or_eq.mp hk with hk' | hk'
    · show (pushM st e).indices (entAt (st.entries ++ [e]) k).sid = some k
      rw [entAt_append_left hk', hind]
      rw [if_neg ?_]
      · exact hc.1 k hk'
      · intro heq
        have := hc.1 k hk'
        rw [heq, hfresh] at this
        cases this
    · subst hk'
      show (pushM st e).indices (entAt (st.entries ++ [e]) st.entries.length).sid = _
      rw [entAt_concat_length, hind, if_pos rfl]
  · intro s m hm
    rw [hind] at hm
    rw [hlen]
    by_cases hse : s = e.sid
    · rw [if_pos hse] at hm
      obtain rfl : st.entries.length = m := Option.some_inj.mp hm
      refine ⟨by omega, ?_⟩
      show (entAt (st.entries ++ [e]) st.entries.length).sid = s
      rw [entAt_concat_length, hse]
    · rw [if_neg hse] at hm
      obtain ⟨hmlen, hmsid⟩ := hc.2 s m hm
      refine ⟨by omega, ?_⟩
      show (entAt (st.entries ++ [e]) m).sid = s
      rw [entAt_append_left hmlen]
      exact hmsid

theorem heapPushGo_consistent {st : LedgerState} (hc : Consistent st) {e : Entry}
    (hfresh : st.indices e.sid = none) : Consistent (heapPushGo st e) := by
  refine siftUpF_consistent _ _ _ (pushM_consistent hc hfresh) ?_
  rw [pushM_length]
  omega

theorem entAt_dropLast {l : List Entry} {k : Nat} (h : k < l.length - 1) :
    entAt l.dropLast k = entAt l k := by
  unfold entAt
  rw [List.getD_eq_getElem?_getD, List.getElem?_dropLast, if_pos h, List.getD_eq_getElem?_getD]

theorem popM_consistent {st : LedgerState} (hc : Consistent st)
    (hne : st.entries.length ≠ 0) : Consistent (popM st).2 := by
  have hlast : st.entries.length - 1 < st.entries.length := by omega
  have hlen : (popM st).2.entries.length = st.entries.length - 1 := by
    show st.entries.dropLast.length = _
    rw [List.length_dropLast]
  have hind : ∀ s, (popM st).2.indices s =
      if s = (entAt st.entries (st.entries.length - 1)).sid then none else st.indices s := by
    intro s
    show (st.indices.del (entAt st.entries (st.entries.length - 1)).sid) s = _
    simp [IndexMap.del]
  constructor
  · intro k hk
    rw [hlen] at hk
    show (popM st).2.indices (entAt st.entries.dropLast k).sid = some k
    rw [entAt_dropLast hk, hind]
    rw [if_neg (fun heq => by
      have := consistent_sid_inj hc (by omega) hlast heq
      omega)]
    exact hc.1 k (by omega)
  · intro s m hm
    rw [hind] at hm
    rw [hlen]
    by_cases hse : s = (entAt st.entries (st.entries.length - 1)).sid
    · rw [if_pos hse] at hm
      cases hm
    · rw [if_neg hse] at hm
      obtain ⟨hmlen, hmsid⟩ := hc.2 s m hm
      have hmne : m ≠ st.entries.length - 1 := fun hh => hse (by rw [← hmsid, hh])
      refine ⟨by omega, ?_⟩
      show (entAt st.entries.dropLast m).sid = s
      rw [entAt_dropLast (by omega)]
      exact hmsid

theorem mem_dropLast {l : List Entry} {e : Entry} (h : e ∈ l.dropLast) : e ∈ l :=
  (List.dropLast_sublist l).subset h

theorem popM_spec {st : LedgerState} (hc : Consistent st) (hne : st.entries.length ≠ 0) :
    (popM st).1 = entAt st.entries (st.entries.length - 1) ∧
    Consistent (popM st).2 ∧
    (popM st).2.entries.length = st.entries.length - 1 ∧
    (∀ e, e ∈ (popM st).2.entries → e ∈ st.entries) ∧
    (∀ s, s ≠ (entAt st.entries (st.entries.length - 1)).sid → sidMem s st.entries →
      sidMem s (popM st).2.entries) ∧
    ¬ sidMem (entAt st.entries (st.entries.length - 1)).sid (popM st).2.entries := by
  have hlen : (popM st).2.entries.length = st.entries.length - 1 := by
    show st.entries.dropLast.length = _
    rw [List.length_dropLast]
  refine ⟨rfl, popM_consistent hc hne, hlen, ?_, ?_, ?_⟩
  · intro e he
    exact mem_dropLast he
  · intro s hs hmem
    obtain ⟨k, hk, hks⟩ := hmem
    have hkne : k ≠ st.entries.length - 1 := fun hh => hs (by rw [← hks, hh])
    refine ⟨k, ?_, ?_⟩
    · rw [hlen]; omega
    · show (entAt st.entries.dropLast k).sid = s
      rw [entAt_dropLast (by omega)]
      exact hks
  · refine not_sidMem_of_indices_none (popM_consistent hc hne) ?_
    show (st.indices.del (entAt st.entries (st.entries.length - 1)).sid) _ = none
    simp [IndexMap.del]

theorem heapRemoveGo_spec {st : LedgerState} (hc : Consistent st) {idx : Nat}
    (hidx : idx < st.entries.length) :
    (heapRemoveGo st idx).1 = entAt st.entries idx ∧
    Consistent (heapRemoveGo st idx).2 ∧
    (heapRemoveGo st idx).2.entries.length = st.entries.length - 1 ∧
    (∀ e, e ∈ (heapRemoveGo st idx).2.entries → e ∈ st.entries) ∧
    (∀ s, s ≠ (entAt st.entries idx).sid → sidMem s st.entries →
      sidMem s (heapRemoveGo st idx).2.entries) ∧
    ¬ sidMem (entAt st.entries idx).sid (heapRemoveGo st idx).2.entries := by
  have hne : st.entries.length ≠ 0 := by omega
  by_cases hlast : idx = st.entries.length - 1
  · have hrem : heapRemoveGo st idx = popM st := by
      unfold heapRemoveGo
      rw [if_pos hlast]
    rw [hrem, hlast]
    exact popM_spec hc hne
  · have hm : st.entries.length - 1 < st.entries.length := by omega
    have hidxm : idx < st.entries.length - 1 := by omega
    set m := st.entries.length - 1 with hmdef
    set st1 := swapSt st idx m with hst1
    have hc1 : Consistent st1 := swapSt_consistent hc hidx hm
    have hlen1 : st1.entries.length = st.entries.length := length_swapSt st idx m
    have hat1 : entAt st1.entries m = entAt st.entries idx := by
      rw [hst1, entAt_swapSt st hidx hm m, if_pos rfl]
    set st2 := (siftDownF m st1 idx m).1 with hst2
    have hc2 : Consistent st2 := siftDownF_consistent m st1 idx m hc1 (by omega)
    have hlen2 : st2.entries.length = st.entries.length := by
      rw [hst2, siftDownF_length, hlen1]
    have hat2 : entAt st2.entries m = entAt st.entries idx := by
      rw [hst2, siftDownF_entAt_ge m st1 idx m m le_rfl, hat1]
    have hmem2 : ∀ e : Entry, e ∈ st2.entries ↔ e ∈ st.entries := by
      intro e
      rw [hst2, siftDownF_mem_iff m st1 idx m (by omega) e, hst1,
        mem_swapSt_iff st hidx hm e]
    set st3 := if (siftDownF m st1 idx m).2 > idx then st2 else siftUp st2 idx with hst3
    have hc3 : Consistent st3 := by
      rw [hst3]
      split
      · exact hc2
      · exact siftUpF_consistent _ st2 idx hc2 (by omega)
    have hlen3 : st3.entries.length = st.entries.length := by
      rw [hst3]
      split
      · exact hlen2
      · rw [siftUp_length, hlen2]
    have hat3 : entAt st3.entries m = entAt st.entries idx := by
      rw [hst3]
      split
      · exact hat2
      · show entAt (siftUpF (idx+1) st2 idx).entries m = entAt st.entries idx
        rw [siftUpF_entAt_gt _ st2 idx m (by omega), hat2]
    have hmem3 : ∀ e : Entry, e ∈ st3.entries ↔ e ∈ st.entries := by
      intro e
      rw [hst3]
      split
      · exact hmem2 e
      · rw [siftUp_mem_iff st2 (by omega) e]
        exact hmem2 e
    have hrem : heapRemoveGo st idx = popM st3 := by
      rw [hst3, hst2, hst1, hmdef]
      unfold heapRemoveGo siftDown
      rw [if_neg hlast]
    have hne3 : st3.entries.length ≠ 0 := by omega
    have hlast3 : entAt st3.entries (st3.entries.length - 1) = entAt st.entries idx := by
      rw [hlen3, ← hmdef, hat3]
    obtain ⟨hp1, hp2, hp3, hp4, hp5, hp6⟩ := popM_spec hc3 hne3
    rw [hlast3] at hp1 hp5 hp6
    rw [hrem]
    refine ⟨hp1, hp2, by rw [hp3, hlen3], ?_, ?_, hp6⟩
    · intro e he
      exact (hmem3 e).mp (hp4 e he)
    · intro s hs hmem
      refine hp5 s hs ?_
      obtain ⟨e, he, hes⟩ := sidMem_iff_exists_mem.mp hmem
      exact sidMem_iff_exists_mem.mpr ⟨e, (hmem3 e).mpr he, hes⟩

theorem removeQuery_found_spec {st : LedgerState} (hc : Consistent st) {s idx : Nat}
    (hidx : st.indices s = some idx) :
    (entAt st.entries idx).sid = s ∧
    (removeQuery s st).1 = some (entAt st.entries idx).q ∧
    Consistent (removeQuery s st).2 ∧
    (removeQuery s st).2.entries.length = st.entries.length - 1 ∧
    (∀ e, e ∈ (removeQuery s st).2.entries → e ∈ st.entries) ∧
    (∀ t, t ≠ s → sidMem t st.entries → sidMem t (removeQuery s st).2.entries) ∧
    ¬ sidMem s (removeQuery s st).2.entries := by
  obtain ⟨hlt, hsid⟩ := hc.2 s idx hidx
  have hr1 : (removeQuery s st).1 = some (heapRemoveGo st idx).1.q := by
    unfold removeQuery
    rw [hidx]
  have hr2 : (removeQuery s st).2 = (heapRemoveGo st idx).2 := by
    unfold removeQuery
    rw [hidx]
  obtain ⟨hq1, hq2, hq3, hq4, hq5, hq6⟩ := heapRemoveGo_spec hc hlt
  rw [hsid] at hq5 hq6
  refine ⟨hsid, ?_, ?_, ?_, ?_, ?_, ?_⟩
  · rw [hr1, hq1]
  · rw [hr2]; exact hq2
  · rw [hr2]; exact hq3
  · rw [hr2]; exact hq4
  · intro t ht hmem
    rw [hr2]
    exact hq5 t ht hmem
  · rw [hr2]
    exact hq6

theorem mem_eraseKey {p : Nat × DnsQuery} {s : Nat} {M : QueryMap} :
    p ∈ eraseKey s M ↔ p ∈ M ∧ p.1 ≠ s := by
  unfold eraseKey
  rw [List.mem_filter]
  simp

theorem lookupQ_eq_some_of_mem_nodup {s : Nat} {q : DnsQuery} {M : QueryMap}
    (hmem : (s, q) ∈ M) (hnd : (M.map Prod.fst).Nodup) : lookupQ s M = some q := by
  induction M with
  | nil => cases hmem
  | cons p ps ih =>
    rcases List.mem_cons.mp hmem with rfl | hps
    · unfold lookupQ
      rw [if_pos rfl]
    · unfold lookupQ
      rw [List.map_cons, List.nodup_cons] at hnd
      rw [if_neg ?_]
      · exact ih hps hnd.2
      · intro hp1
        exact hnd.1 (hp1 ▸ List.mem_map_of_mem Prod.fst hps)

theorem lookupQ_eq_none_of_not_key {s : Nat} {M : QueryMap}
    (h : ∀ q, (s, q) ∉ M) : lookupQ s M = none := by
  induction M with
  | nil => rfl
  | cons p ps ih =>
    unfold lookupQ
    rw [if_neg ?_]
    · exact ih (fun q hq => h q (List.mem_cons_of_mem p hq))
    · intro hp1
      exact h p.2 (by rw [← hp1]; exact List.mem_cons_self p ps)

theorem keys_eraseKey_nodup {M : QueryMap} {s : Nat}
    (h : (M.map Prod.fst).Nodup) : ((eraseKey s M).map Prod.fst).Nodup :=
  ((List.filter_sublist M).map Prod.fst).nodup h

theorem indices_none_of_not_key {M : QueryMap} {st : LedgerState} (hinv : InvL M st)
    {s : Nat} (hs : ∀ q, (s, q) ∉ M) : st.indices s = none := by
  cases hind : st.indices s with
  | none => rfl
  | some i =>
    obtain ⟨hlt, hsid⟩ := hinv.1.2 s i hind
    have hmem := hinv.2.1 (entAt st.entries i) (mem_entAt hlt)
    rw [hsid] at hmem
    exact absurd hmem (hs _)

theorem InvL_congr {M M' : QueryMap} {st : LedgerState}
    (h : ∀ p, p ∈ M ↔ p ∈ M') (hinv : InvL M st) : InvL M' st :=
  ⟨hinv.1, fun e he => (h _).mp (hinv.2.1 e he), fun p hp => hinv.2.2 p ((h p).mpr hp)⟩

theorem InvL_add {M : QueryMap} {st : LedgerState} (hinv : InvL M st)
    (now : Nat) (q : DnsQuery) (hfresh : st.indices q.sid = none) :
    InvL ((q.sid, q) :: M) (addQuery now q st) := by
  obtain ⟨hc, h2, h3⟩ := hinv
  refine ⟨heapPushGo_consistent hc hfresh, ?_, ?_⟩
  · intro e he
    rcases (mem_heapPushGo_iff st _ e).mp he with he' | rfl
    · exact List.mem_cons_of_mem _ (h2 e he')
    · exact List.mem_cons_self _ _
  · intro p hp
    rcases List.mem_cons.mp hp with rfl | hpM
    · exact sidMem_iff_exists_mem.mpr ⟨_, (mem_heapPushGo_iff st _ _).mpr (Or.inr rfl), rfl⟩
    · obtain ⟨e, he, hes⟩ := sidMem_iff_exists_mem.mp (h3 p hpM)
      exact sidMem_iff_exists_mem.mpr ⟨e, (mem_heapPushGo_iff st _ e).mpr (Or.inl he), hes⟩

theorem InvL_remove {M : QueryMap} {st : LedgerState} (hinv : InvL M st)
    (hnd : (M.map Prod.fst).Nodup) (s : Nat) :
    (removeQuery s st).1 = lookupQ s M ∧ InvL (eraseKey s M) (removeQuery s st).2 := by
  by_cases hkey : ∃ q, (s, q) ∈ M
  · obtain ⟨q, hq⟩ := hkey
    obtain ⟨e, he, hes⟩ := sidMem_iff_exists_mem.mp (hinv.2.2 (s, q) hq)
    rcases mem_iff_entAt.mp he with ⟨k, hk, hke⟩
    have hidx : st.indices s = some k := by
      have hh := hinv.1.1 k hk
      rw [hke, hes] at hh
      exact hh
    obtain ⟨hsid, hout, hcons, hlen, hmem, hpres, hgone⟩ := removeQuery_found_spec hinv.1 hidx
    constructor
    · rw [hout]
      have hpm := hinv.2.1 (entAt st.entries k) (mem_entAt hk)
      rw [hsid] at hpm
      rw [lookupQ_eq_some_of_mem_nodup hpm hnd]
    · refine ⟨hcons, ?_, ?_⟩
      · intro e' he'
        refine mem_eraseKey.mpr ⟨hinv.2.1 e' (hmem e' he'), ?_⟩
        intro hes'
        exact hgone (sidMem_iff_exists_mem.mpr ⟨e', he', hes'⟩)
      · intro p hp
        obtain ⟨hpM, hps⟩ := mem_eraseKey.mp hp
        exact hpres p.1 hps (hinv.2.2 p hpM)
  · push_neg at hkey
    have hnone : st.indices s = none := indices_none_of_not_key hinv hkey
    have h1 : (removeQuery s st).1 = none := by unfold removeQuery; rw [hnone]
    have h2 : (removeQuery s st).2 = st := by unfold removeQuery; rw [hnone]
    rw [h1, h2, lookupQ_eq_none_of_not_key hkey]
    refine ⟨rfl, hinv.1, ?_, ?_⟩
    · intro e he
      refine mem_eraseKey.mpr ⟨hinv.2.1 e he, ?_⟩
      intro hes
      exact hkey e.q (hes ▸ hinv.2.1 e he)
    · intro p hp
      exact hinv.2.2 p (mem_eraseKey.mp hp).1

theorem addAll_inv : ∀ (adds : List (Nat × DnsQuery)) (M : QueryMap) (st : LedgerState),
    InvL M st →
    ((M.map Prod.fst) ++ adds.map (fun p => p.2.sid)).Nodup →
    InvL (M ++ adds.map (fun p => (p.2.sid, p.2))) (addAll adds st) := by
  intro adds
  induction adds with
  | nil =>
    intro M st hinv _
    simpa using hinv
  | cons a rest ih =>
    intro M st hinv hnd
    obtain ⟨t, q⟩ := a
    rw [List.map_cons] at hnd
    have hnd' := hnd
    rw [List.nodup_append] at hnd'
    have hqs : q.sid ∉ M.map Prod.fst := fun hh =>
      hnd'.2.2 hh (List.mem_cons_self _ _)
    have hfresh : st.indices q.sid = none :=
      indices_none_of_not_key hinv
        (fun q' hq' => hqs (List.mem_map_of_mem Prod.fst hq'))
    have hinv1 := InvL_add hinv t q hfresh
    have hperm : ((q.sid :: M.map Prod.fst) ++ rest.map (fun p => p.2.sid)).Perm
        (M.map Prod.fst ++ q.sid :: rest.map (fun p => p.2.sid)) :=
      (List.perm_middle).symm
    have hnd1 : ((((q.sid, q) :: M).map Prod.fst) ++ rest.map (fun p => p.2.sid)).Nodup := by
      rw [List.map_cons]
      exact (hperm.nodup_iff).mpr hnd
    have hres := ih ((q.sid, q) :: M) (addQuery t q st) hinv1 hnd1
    refine InvL_congr (fun p => ?_) hres
    constructor
    · intro hp
      rcases List.mem_append.mp hp with hp' | hp'
      · rcases List.mem_cons.mp hp' with rfl | hp''
        · exact List.mem_append_right _ (by rw [List.map_cons]; exact List.mem_cons_self _ _)
        · exact List.mem_append_left _ hp''
      · exact List.mem_append_right _ (by rw [List.map_cons]; exact List.mem_cons_of_mem _ hp')
    · intro hp
      rcases List.mem_append.mp hp with hp' | hp'
      · exact List.mem_append_left _ (List.mem_cons_of_mem _ hp')
      · rw [List.map_cons] at hp'
        rcases List.mem_cons.mp hp' with rfl | hp''
        · exact List.mem_append_left _ (List.mem_cons_self _ _)
        · exact List.mem_append_right _ hp''

theorem removeAll_inv : ∀ (rs : List Nat) (M : QueryMap) (st : LedgerState),
    InvL M st → (M.map Prod.fst).Nodup →
    (removeAll rs st).1 = expectedOuts M rs ∧
    InvL (rs.foldl (fun m s => eraseKey s m) M) (removeAll rs st).2 := by
  intro rs
  induction rs with
  | nil => intro M st hinv hnd; exact ⟨rfl, hinv⟩
  | cons s rest ih =>
    intro M st hinv hnd
    obtain ⟨ho, hinv'⟩ := InvL_remove hinv hnd s
    obtain ⟨ih1, ih2⟩ := ih (eraseKey s M) (removeQuery s st).2 hinv' (keys_eraseKey_nodup hnd)
    constructor
    · show (removeQuery s st).1 :: (removeAll rest (removeQuery s st).2).1 =
        lookupQ s M :: expectedOuts (eraseKey s M) rest
      rw [ho, ih1]
    · exact ih2

/-- C5: starting from the empty ledger, insert any number of queries
with pairwise distinct transaction ids (each at an arbitrary time), then
remove by id in any order, including repetitions.  Every removal returns
exactly the query that was inserted under that id while it is live, and
a removal of an id already removed (or never inserted) returns absent —
this is `expectedOuts` over the id/query association of the inserts.
Moreover the transactionId-to-position index is consistent (it equals
the true heap position of every live entry, and knows only live
entries) after every push prefix and after every removal prefix, and
index consistency is preserved by every single `Swap` of the heap
implementation. -/
theorem ledger_distinct_ids_correct (adds : List (Nat × DnsQuery)) (rs : List Nat)
    (hnd : (adds.map (fun p => p.2.sid)).Nodup) :
    (removeAll rs (addAll adds emptyLedger)).1 =
      expectedOuts (adds.map (fun p => (p.2.sid, p.2))) rs ∧
    (∀ k, Consistent (addAll (adds.take k) emptyLedger)) ∧
    (∀ k, Consistent ((removeAll (rs.take k) (addAll adds emptyLedger)).2)) ∧
    (∀ st i j, Consistent st → i < st.entries.length → j < st.entries.length →
      Consistent (swapSt st i j)) := by
  have hempty : InvL [] emptyLedger := by
    refine ⟨⟨?_, ?_⟩, ?_, ?_⟩
    · intro i hi
      exact absurd hi (by simp [emptyLedger])
    · intro s i h
      cases h
    · intro e he
      exact absurd he (by simp [emptyLedger])
    · intro p hp
      cases hp
  have hkeys : (adds.map (fun p => (p.2.sid, p.2))).map Prod.fst =
      adds.map (fun p => p.2.sid) := by
    rw [List.map_map]
    rfl
  have hadd := addAll_inv adds [] emptyLedger hempty (by simpa using hnd)
  rw [List.nil_append] at hadd
  have hndk : ((adds.map (fun p => (p.2.sid, p.2))).map Prod.fst).Nodup := by
    rw [hkeys]; exact hnd
  refine ⟨(removeAll_inv rs _ _ hadd hndk).1, ?_, ?_,
    fun st i j hc hi hj => swapSt_consistent hc hi hj⟩
  · intro k
    have hndt : ((adds.take k).map (fun p => p.2.sid)).Nodup := by
      rw [List.map_take]
      exact (List.take_sublist k _).nodup hnd
    exact (addAll_inv (adds.take k) [] emptyLedger hempty (by simpa using hndt)).1
  · intro k
    exact ((removeAll_inv (rs.take k) _ _ hadd hndk).2).1

/-- C5 (witness): two inserts with ids 1 and 2 followed by the removal
sequence 2, 1, 2: the first two removals return the inserted queries,
the repeated removal returns absent. -/
theorem ledger_distinct_ids_correct_witness :
    (removeAll [2, 1, 2] (addAll [(0, ⟨1, 7, ""⟩), (3, ⟨2, 8, ""⟩)] emptyLedger)).1 =
      [some ⟨2, 8, ""⟩, some ⟨1, 7, ""⟩, none] :=
  (ledger_distinct_ids_correct [(0, ⟨1, 7, ""⟩), (3, ⟨2, 8, ""⟩)] [2, 1, 2] (by decide)).1

theorem heapOrdN_root_min {l : List Entry} {n : Nat} (h : HeapOrdN l n) :
    ∀ k, k < n → (entAt l 0).ts ≤ (entAt l k).ts := by
  intro k
  induction k using Nat.strong_induction_on with
  | _ k ih =>
    intro hk
    rcases Nat.eq_zero_or_pos k with rfl | hkpos
    · exact le_refl _
    · have hp : (k-1)/2 < k := parent_lt (by omega)
      exact le_trans (ih _ hp (by omega)) (h k hk hkpos)

theorem mem_sid_unique {st : LedgerState} (hc : Consistent st) {a b : Entry}
    (ha : a ∈ st.entries) (hb : b ∈ st.entries) (hs : a.sid = b.sid) : a = b := by
  rcases mem_iff_entAt.mp ha with ⟨i, hi, hia⟩
  rcases mem_iff_entAt.mp hb with ⟨j, hj, hjb⟩
  have : i = j := consistent_sid_inj hc hi hj (by rw [hia, hjb]; exact hs)
  rw [← hia, ← hjb, this]

theorem consistent_del_not_mem {st : LedgerState} (hc : Consistent st) (s : Nat)
    (hnm : ¬ sidMem s st.entries) :
    Consistent { entries := st.entries, indices := st.indices.del s } := by
  constructor
  · intro k hk
    show (st.indices.del s) (entAt st.entries k).sid = some k
    unfold IndexMap.del
    rw [if_neg (fun hh => hnm ⟨k, hk, hh⟩)]
    exact hc.1 k hk
  · intro t m hm
    have hm' : (st.indices.del s) t = some m := hm
    have hts : t ≠ s := by
      intro hts
      rw [hts] at hm'
      unfold IndexMap.del at hm'
      rw [if_pos rfl] at hm'
      cases hm'
    unfold IndexMap.del at hm'
    rw [if_neg hts] at hm'
    exact hc.2 t m hm'

theorem siftUpF_heapOrd (fuel : Nat) : ∀ st j,
    j < st.entries.length → j < fuel →
    (∀ k, k < st.entries.length → 0 < k → k ≠ j →
      (entAt st.entries ((k-1)/2)).ts ≤ (entAt st.entries k).ts) →
    (∀ k, k < st.entries.length → 0 < j → (k-1)/2 = j →
      (entAt st.entries ((j-1)/2)).ts ≤ (entAt st.entries k).ts) →
    HeapOrd (siftUpF fuel st j).entries := by
  induction fuel with
  | zero =>
    intro st j _ hf _ _
    omega
  | succ fuel ih =>
    intro st j hj hf ha hb
    unfold siftUpF
    split
    · next hj0 =>
      subst hj0
      intro k hk hkpos
      exact ha k hk hkpos (by omega)
    · next hj0 =>
      have hj0' : 0 < j := Nat.pos_of_ne_zero hj0
      split
      · next hless =>
        have hlt : (entAt st.entries j).ts < (entAt st.entries ((j-1)/2)).ts := by
          have h := hless
          unfold lessAt at h
          exact of_decide_eq_true h
        have hij : (j-1)/2 < j := parent_lt hj0
        have hi : (j-1)/2 < st.entries.length := lt_trans hij hj
        refine ih (swapSt st ((j-1)/2) j) ((j-1)/2)
          (by rw [length_swapSt]; exact hi) (by omega) ?_ ?_
        · intro k hk hkpos hki
          rw [length_swapSt] at hk
          rw [entAt_swapSt st hi hj k, entAt_swapSt st hi hj ((k-1)/2)]
          by_cases hkj : k = j
          · subst hkj
            rw [if_pos rfl, if_neg (by omega : ¬ (k-1)/2 = k), if_pos rfl]
            exact le_of_lt hlt
          · rw [if_neg hkj]
            by_cases hpkj : (k-1)/2 = j
            · rw [if_pos hpkj, if_neg hki]
              exact hb k hk hj0' hpkj
            · rw [if_neg hpkj, if_neg hki]
              by_cases hpki : (k-1)/2 = (j-1)/2
              · rw [if_pos hpki]
                have h1 := ha k hk hkpos hkj
                rw [hpki] at h1
                exact le_trans (le_of_lt hlt) h1
              · rw [if_neg hpki]
                exact ha k hk hkpos hkj
        · intro k hk hipos hpki
          rw [length_swapSt] at hk
          have hkgt : (j-1)/2 < k := by omega
          rw [entAt_swapSt st hi hj k, entAt_swapSt st hi hj (((j-1)/2-1)/2)]
          have hpi1 : ((j-1)/2-1)/2 < (j-1)/2 := parent_lt (by omega)
          rw [if_neg (by omega : ¬ ((j-1)/2-1)/2 = j),
            if_neg (by omega : ¬ ((j-1)/2-1)/2 = (j-1)/2)]
          by_cases hkj : k = j
          · rw [if_pos hkj]
            exact ha ((j-1)/2) hi hipos (by omega)
          · rw [if_neg hkj, if_neg (by omega : ¬ k = (j-1)/2)]
            have h1 := ha ((j-1)/2) hi hipos (by omega)
            have h2 := ha k hk (by omega) hkj
            rw [hpki] at h2
            exact le_trans h1 h2
      · next hless =>
        have hge : (entAt st.entries ((j-1)/2)).ts ≤ (entAt st.entries j).ts := by
          have h : ¬ ((entAt st.entries j).ts < (entAt st.entries ((j-1)/2)).ts) := by
            intro hcon
            exact hless (by unfold lessAt; exact decide_eq_true hcon)
          omega
        intro k hk hkpos
        by_cases hkj : k = j
        · subst hkj
          exact hge
        · exact ha k hk hkpos hkj

theorem heapPushGo_heapOrd {st : LedgerState} (ho : HeapOrd st.entries) (e : Entry) :
    HeapOrd (heapPushGo st e).entries := by
  unfold heapPushGo
  have hlen : (pushM st e).entries.length = st.entries.length + 1 := pushM_length st e
  have hj : (pushM st e).entries.length - 1 = st.entries.length := by omega
  rw [hj]
  unfold siftUp
  refine siftUpF_heapOrd _ _ _ (by omega) (by omega) ?_ ?_
  · intro k hk hkpos hkj
    rw [hlen] at hk
    have hk' : k < st.entries.length := by omega
    show (entAt (st.entries ++ [e]) ((k-1)/2)).ts ≤ (entAt (st.entries ++ [e]) k).ts
    rw [entAt_append_left hk', entAt_append_left (by omega)]
    exact ho k hk' hkpos
  · intro k hk _ hpk
    rw [hlen] at hk
    omega

theorem siftDownF_heapOrd (fuel : Nat) : ∀ st i n,
    n ≤ st.entries.length → n ≤ fuel + i + 1 →
    (∀ k, k < n → 0 < k → k ≠ 2*i+1 → k ≠ 2*i+2 →
      (entAt st.entries ((k-1)/2)).ts ≤ (entAt st.entries k).ts) →
    (∀ k, k < n → 0 < i → (k-1)/2 = i →
      (entAt st.entries ((i-1)/2)).ts ≤ (entAt st.entries k).ts) →
    HeapOrdN (siftDownF fuel st i n).1.entries n := by
  induction fuel with
  | zero =>
    intro st i n hn hf ha hb
    intro k hk hkpos
    exact ha k hk hkpos (by omega) (by omega)
  | succ fuel ih =>
    intro st i n hn hf ha hb
    unfold siftDownF
    split
    · next hchild =>
      have hjlt : childSel st i n < n := childSel_lt st hchild
      have hjgt : i < childSel st i n := childSel_gt st i n
      have hji : childSel st i n < st.entries.length := lt_of_lt_of_le hjlt hn
      have hii : i < st.entries.length := by omega
      have hjc : childSel st i n = 2*i+1 ∨ childSel st i n = 2*i+2 := by
        unfold childSel
        split
        · exact Or.inr rfl
        · exact Or.inl rfl
      have hparj : (childSel st i n - 1)/2 = i := by
        rcases hjc with h | h <;> rw [h] <;> omega
      have hsib : ∀ k, k < n → (k-1)/2 = i → 0 < k → k ≠ childSel st i n →
          (entAt st.entries (childSel st i n)).ts ≤ (entAt st.entries k).ts := by
        intro k hk hpk hkpos hkj
        have hk12 : k = 2*i+1 ∨ k = 2*i+2 := by omega
        by_cases hcond : (2*i+2 < n && lessAt st (2*i+2) (2*i+1)) = true
        · have hjeq : childSel st i n = 2*i+2 := by unfold childSel; rw [if_pos hcond]
          have hlt21 : (entAt st.entries (2*i+2)).ts < (entAt st.entries (2*i+1)).ts := by
            have h2 := ((Bool.and_eq_true _ _).mp hcond).2
            unfold lessAt at h2
            exact of_decide_eq_true h2
          have hkeq : k = 2*i+1 := by
            rcases hk12 with h | h
            · exact h
            · exact absurd (h.trans hjeq.symm) hkj
          rw [hjeq, hkeq]
          exact le_of_lt hlt21
        · have hjeq : childSel st i n = 2*i+1 := by unfold childSel; rw [if_neg hcond]
          have hkeq : k = 2*i+2 := by
            rcases hk12 with h | h
            · exact absurd (h.trans hjeq.symm) hkj
            · exact h
          have hnoless :
              ¬ ((entAt st.entries (2*i+2)).ts < (entAt st.entries (2*i+1)).ts) := by
            intro hcon
            apply hcond
            rw [Bool.and_eq_true]
            refine ⟨decide_eq_true (by omega : 2*i+2 < n), ?_⟩
            unfold lessAt
            exact decide_eq_true hcon
          rw [hjeq, hkeq]
          omega
      split
      · next hless =>
        have hlt : (entAt st.entries (childSel st i n)).ts < (entAt st.entries i).ts := by
          have h := hless
          unfold lessAt at h
          exact of_decide_eq_true h
        refine ih (swapSt st i (childSel st i n)) (childSel st i n) n
          (by rw [length_swapSt]; exact hn) (by omega) ?_ ?_
        · intro k hk hkpos hk1 hk2
          have hpkjc : (k-1)/2 ≠ childSel st i n := by omega
          rw [entAt_swapSt st hii hji k, entAt_swapSt st hii hji ((k-1)/2)]
          by_cases hkjc : k = childSel st i n
          · rw [if_pos hkjc, hkjc, hparj,
              if_neg (by omega : ¬ i = childSel st i n), if_pos rfl]
            exact le_of_lt hlt
          · rw [if_neg hkjc, if_neg hpkjc]
            by_cases hpki : (k-1)/2 = i
            · rw [if_pos hpki]
              have hki : k ≠ i := by omega
              rw [if_neg hki]
              exact hsib k hk hpki hkpos hkjc
            · rw [if_neg hpki]
              by_cases hki : k = i
              · rw [if_pos hki, hki]
                have hipos : 0 < i := by omega
                exact hb (childSel st i n) hjlt hipos hparj
              · rw [if_neg hki]
                exact ha k hk hkpos (by omega) (by omega)
        · intro k hk hjpos hpk
          rw [entAt_swapSt st hii hji k, entAt_swapSt st hii hji ((childSel st i n - 1)/2),
            hparj]
          have hkbig : 2 * childSel st i n + 1 ≤ k := by omega
          rw [if_neg (by omega : ¬ i = childSel st i n), if_pos rfl,
            if_neg (by omega : ¬ k = childSel st i n), if_neg (by omega : ¬ k = i)]
          have h1 := ha k hk (by omega) (by omega) (by omega)
          rw [hpk] at h1
          exact h1
      · next hless =>
        have hge : (entAt st.entries i).ts ≤ (entAt st.entries (childSel st i n)).ts := by
          have h : ¬ ((entAt st.entries (childSel st i n)).ts < (entAt st.entries i).ts) := by
            intro hcon
            exact hless (by unfold lessAt; exact decide_eq_true hcon)
          omega
        intro k hk hkpos
        by_cases hkjc : k = childSel st i n
        · rw [hkjc, hparj]
          exact le_trans hge (le_refl _)
        · by_cases hpki : (k-1)/2 = i
          · rw [hpki]
            exact le_trans hge (hsib k hk hpki hkpos hkjc)
          · exact ha k hk hkpos (by omega) (by omega)
    · next hchild =>
      intro k hk hkpos
      exact ha k hk hkpos (by omega) (by omega)

theorem heapPopGo_spec {st : LedgerState} (hc : Consistent st) (ho : HeapOrd st.entries)
    (hne : st.entries.length ≠ 0) :
    (heapPopGo st).1 = entAt st.entries 0 ∧
    Consistent (heapPopGo st).2 ∧
    HeapOrd (heapPopGo st).2.entries ∧
    (heapPopGo st).2.entries.length = st.entries.length - 1 ∧
    (∀ e, e ∈ (heapPopGo st).2.entries → e ∈ st.entries) ∧
    (∀ s, s ≠ (entAt st.entries 0).sid → sidMem s st.entries →
      sidMem s (heapPopGo st).2.entries) ∧
    ¬ sidMem (entAt st.entries 0).sid (heapPopGo st).2.entries ∧
    (heapPopGo st).2.indices (entAt st.entries 0).sid = none ∧
    (∀ e ∈ st.entries, (entAt st.entries 0).ts ≤ e.ts) := by
  have h0 : 0 < st.entries.length := by omega
  have hm : st.entries.length - 1 < st.entries.length := by omega
  set m := st.entries.length - 1 with hmdef
  set st1 := swapSt st 0 m with hst1
  have hc1 : Consistent st1 := swapSt_consistent hc h0 hm
  have hlen1 : st1.entries.length = st.entries.length := length_swapSt st 0 m
  have hat1 : entAt st1.entries m = entAt st.entries 0 := by
    rw [hst1, entAt_swapSt st h0 hm m, if_pos rfl]
  set st2 := (siftDownF m st1 0 m).1 with hst2
  have hc2 : Consistent st2 := siftDownF_consistent m st1 0 m hc1 (by omega)
  have hlen2 : st2.entries.length = st.entries.length := by
    rw [hst2, siftDownF_length, hlen1]
  have hat2 : entAt st2.entries m = entAt st.entries 0 := by
    rw [hst2, siftDownF_entAt_ge m st1 0 m m le_rfl, hat1]
  have hmem2 : ∀ e : Entry, e ∈ st2.entries ↔ e ∈ st.entries := by
    intro e
    rw [hst2, siftDownF_mem_iff m st1 0 m (by omega) e, hst1, mem_swapSt_iff st h0 hm e]
  have hordN : HeapOrdN st2.entries m := by
    rw [hst2]
    refine siftDownF_heapOrd m st1 0 m (by omega) (by omega) ?_ ?_
    · intro k hk hkpos hk1 hk2
      rw [hst1, entAt_swapSt st h0 hm k, entAt_swapSt st h0 hm ((k-1)/2)]
      rw [if_neg (by omega : ¬ (k-1)/2 = m), if_neg (by omega : ¬ (k-1)/2 = 0),
        if_neg (by omega : ¬ k = m), if_neg (by omega : ¬ k = 0)]
      exact ho k (by omega) hkpos
    · intro k hk hipos _
      omega
  have hrem : heapPopGo st = popM st2 := by
    rw [hst2, hst1, hmdef]
    unfold heapPopGo siftDown
    rfl
  obtain ⟨hp1, hp2, hp3, hp4, hp5, hp6⟩ := popM_spec hc2 (by omega)
  have hlast2 : entAt st2.entries (st2.entries.length - 1) = entAt st.entries 0 := by
    rw [hlen2, ← hmdef, hat2]
  rw [hlast2] at hp1 hp5 hp6
  rw [hrem]
  refine ⟨hp1, hp2, ?_, by rw [hp3, hlen2], ?_, ?_, hp6, ?_, ?_⟩
  · intro k hk hkpos
    have hdl : (popM st2).2.entries.length = m := by rw [hp3, hlen2]
    rw [hdl] at hk
    show (entAt st2.entries.dropLast ((k-1)/2)).ts ≤ (entAt st2.entries.dropLast k).ts
    rw [entAt_dropLast (by omega), entAt_dropLast (by omega)]
    exact hordN k hk hkpos
  · intro e he
    exact (hmem2 e).mp (hp4 e he)
  · intro s hs hmem
    refine hp5 s hs ?_
    obtain ⟨e, he, hes⟩ := sidMem_iff_exists_mem.mp hmem
    exact sidMem_iff_exists_mem.mpr ⟨e, (hmem2 e).mpr he, hes⟩
  · show (st2.indices.del (entAt st2.entries (st2.entries.length - 1)).sid)
      ((entAt st.entries 0).sid) = none
    rw [hlast2]
    simp [IndexMap.del]
  · intro e he
    rcases mem_iff_entAt.mp he with ⟨k, hk, hke⟩
    rw [← hke]
    exact heapOrdN_root_min ho k hk

theorem updateLoop_spec (now : Nat) : ∀ (fuel : Nat) (st : LedgerState),
    Consistent st → HeapOrd st.entries → st.entries.length = fuel →
    Consistent (updateLoop now fuel st) ∧
    HeapOrd (updateLoop now fuel st).entries ∧
    (∀ e, e ∈ (updateLoop now fuel st).entries → e ∈ st.entries) ∧
    (∀ i, i < (updateLoop now fuel st).entries.length →
      ¬ now > (entAt (updateLoop now fuel st).entries i).ts) ∧
    (∀ e ∈ st.entries, ¬ now > e.ts → sidMem e.sid (updateLoop now fuel st).entries) := by
  intro fuel
  induction fuel with
  | zero =>
    intro st hc ho hlen
    refine ⟨hc, ho, fun e he => he, ?_, ?_⟩
    · intro i hi
      have hi' : i < st.entries.length := hi
      omega
    · intro e he _
      have hnil : st.entries = [] := List.eq_nil_of_length_eq_zero hlen
      rw [hnil] at he
      cases he
  | succ k ih =>
    intro st hc ho hlen
    have hne : st.entries.length ≠ 0 := by omega
    obtain ⟨hq1, hq2, hq3, hq4, hq5, hq6, hq7, hq8, hq9⟩ := heapPopGo_spec hc ho hne
    unfold updateLoop
    split
    · next hexp =>
      set st' : LedgerState :=
        { entries := (heapPopGo st).2.entries,
          indices := (heapPopGo st).2.indices.del (heapPopGo st).1.sid } with hst'
      have hc' : Consistent st' := by
        rw [hst', hq1]
        exact consistent_del_not_mem hq2 _ hq7
      have ho' : HeapOrd st'.entries := hq3
      have hlen' : st'.entries.length = k := by
        show (heapPopGo st).2.entries.length = k
        omega
      obtain ⟨ih1, ih2, ih3, ih4, ih5⟩ := ih st' hc' ho' hlen'
      refine ⟨ih1, ih2, ?_, ih4, ?_⟩
      · intro e he
        exact hq5 e (ih3 e he)
      · intro e he hnexp
        have heroot : e.sid ≠ (entAt st.entries 0).sid := by
          intro heq
          have hroot_mem : entAt st.entries 0 ∈ st.entries := mem_entAt (by omega)
          have heq2 := mem_sid_unique hc he hroot_mem heq
          rw [heq2] at hnexp
          rw [hq1] at hexp
          exact hnexp hexp
        have hsm : sidMem e.sid (heapPopGo st).2.entries :=
          hq6 e.sid heroot (sidMem_iff_exists_mem.mpr ⟨e, he, rfl⟩)
        obtain ⟨e2, he2, he2s⟩ := sidMem_iff_exists_mem.mp hsm
        have he2st : e2 ∈ st.entries := hq5 e2 he2
        have he2e : e2 = e := mem_sid_unique hc he2st he he2s
        have hmem' : e2 ∈ st'.entries := he2
        have h5 := ih5 e2 hmem' (by rw [he2e]; exact hnexp)
        rw [he2e] at h5
        exact h5
    · next hexp =>
      have hfresh : (heapPopGo st).2.indices (heapPopGo st).1.sid = none := by
        rw [hq1]
        exact hq8
      refine ⟨heapPushGo_consistent hq2 hfresh, heapPushGo_heapOrd hq3 _, ?_, ?_, ?_⟩
      · intro e he
        rcases (mem_heapPushGo_iff _ _ e).mp he with he' | rfl
        · exact hq5 e he'
        · rw [hq1]
          exact mem_entAt (by omega)
      · have hroot_ok : ¬ now > (entAt st.entries 0).ts := by
          rw [← hq1]
          exact hexp
        intro i hi
        have hmem := mem_entAt hi
        rcases (mem_heapPushGo_iff _ _ _).mp hmem with he' | heq
        · have hest : entAt (heapPushGo (heapPopGo st).2 (heapPopGo st).1).entries i ∈
              st.entries := hq5 _ he'
          have hge := hq9 _ hest
          omega
        · rw [heq, hq1]
          exact hroot_ok
      · intro e he hnexp
        by_cases heroot : e.sid = (entAt st.entries 0).sid
        · refine sidMem_iff_exists_mem.mpr ⟨(heapPopGo st).1, ?_, ?_⟩
          · exact (mem_heapPushGo_iff _ _ _).mpr (Or.inr rfl)
          · rw [hq1]
            exact heroot.symm
        · have hsm := hq6 e.sid heroot (sidMem_iff_exists_mem.mpr ⟨e, he, rfl⟩)
          obtain ⟨e2, he2, he2s⟩ := sidMem_iff_exists_mem.mp hsm
          exact sidMem_iff_exists_mem.mpr
            ⟨e2, (mem_heapPushGo_iff _ _ _).mpr (Or.inl he2), he2s⟩

/-- C7 (counterexample): a reachable ledger state with two colliding
sid-5 entries (expiries 10 and 50).  A pass at time 20 pops and discards
the expired sid-5 entry — it is evicted — but pushing the unexpired
colliding entry back re-indexes id 5, so a subsequent `removeQuery 5`
returns a query instead of absent.  The claim's `after the pass a remove
for any evicted id returns absent` fails on such states. -/
theorem updatePass_evicted_remove_counterexample :
    (addQuery 40 ⟨5, 2, ""⟩ (addQuery 0 ⟨5, 1, ""⟩ emptyLedger)).entries =
      [⟨5, 10, ⟨5, 1, ""⟩⟩, ⟨5, 50, ⟨5, 2, ""⟩⟩] ∧
    (updatePass 20 (addQuery 40 ⟨5, 2, ""⟩ (addQuery 0 ⟨5, 1, ""⟩ emptyLedger))).1.entries =
      [⟨5, 50, ⟨5, 2, ""⟩⟩] ∧
    (removeQuery 5
      (updatePass 20 (addQuery 40 ⟨5, 2, ""⟩ (addQuery 0 ⟨5, 1, ""⟩ emptyLedger))).1).1 =
      some ⟨5, 2, ""⟩ := by
  decide

/-- C7 (amended): on every wake at time `now`, starting from a ledger
state whose index is consistent and whose heap is min-ordered (in
particular the live ids are pairwise distinct, which rules out the
id-collision states of the counterexample), the eviction pass pops and
discards expired entries from the root and stops at the first
non-expired root: afterwards the state is again consistent, no expired
entry remains, every non-expired entry is still live, any id no longer
live removes to absent (covering every evicted id), no timer is armed
when the heap emptied, and otherwise the timer is armed for exactly the
remaining time of the root — which is non-expired and minimal, i.e. the
first non-expired entry.  Entries are inserted by `addQuery` with expiry
exactly ten seconds after insertion time, so an entry never removed by a
caller is discarded by the first pass whose wake time exceeds its
insertion time plus ten seconds. -/
theorem updatePass_amended (now : Nat) (st : LedgerState)
    (hc : Consistent st) (ho : HeapOrd st.entries) :
    Consistent (updatePass now st).1 ∧
    (∀ e, e ∈ (updatePass now st).1.entries → e ∈ st.entries) ∧
    (∀ i, i < (updatePass now st).1.entries.length →
      ¬ now > (entAt (updatePass now st).1.entries i).ts) ∧
    (∀ e ∈ st.entries, ¬ now > e.ts → sidMem e.sid (updatePass now st).1.entries) ∧
    (∀ s, ¬ sidMem s (updatePass now st).1.entries →
      removeQuery s (updatePass now st).1 = (none, (updatePass now st).1)) ∧
    ((updatePass now st).1.entries.length = 0 → (updatePass now st).2 = none) ∧
    (0 < (updatePass now st).1.entries.length →
      (updatePass now st).2 = some ((entAt (updatePass now st).1.entries 0).ts - now) ∧
      ¬ now > (entAt (updatePass now st).1.entries 0).ts ∧
      (∀ e ∈ (updatePass now st).1.entries,
        (entAt (updatePass now st).1.entries 0).ts ≤ e.ts)) ∧
    (∀ t q st2, ∃ i, i < (addQuery t q st2).entries.length ∧
      entAt (addQuery t q st2).entries i = ⟨q.sid, t + 10, q⟩) := by
  obtain ⟨h1, h2, h3, h4, h5⟩ := updateLoop_spec now st.entries.length st hc ho rfl
  refine ⟨h1, h3, h4, h5, ?_, ?_, ?_, ?_⟩
  · intro s hn
    have hnone : (updatePass now st).1.indices s = none := by
      cases hind : (updatePass now st).1.indices s with
      | none => rfl
      | some i =>
        obtain ⟨hlt, hsid⟩ := h1.2 s i hind
        exact absurd ⟨i, hlt, hsid⟩ hn
    unfold removeQuery
    rw [hnone]
  · intro h0
    have h0' : (updateLoop now st.entries.length st).entries.length = 0 := h0
    show (if 0 < (updateLoop now st.entries.length st).entries.length then
      some ((entAt (updateLoop now st.entries.length st).entries 0).ts - now) else none) = none
    rw [if_neg (by omega : ¬ 0 < (updateLoop now st.entries.length st).entries.length)]
  · intro h0
    have h0' : 0 < (updateLoop now st.entries.length st).entries.length := h0
    refine ⟨?_, h4 0 h0, ?_⟩
    · show (if 0 < (updateLoop now st.entries.length st).entries.length then
        some ((entAt (updateLoop now st.entries.length st).entries 0).ts - now) else none) = _
      rw [if_pos h0']
      rfl
    · intro e he
      rcases mem_iff_entAt.mp he with ⟨k, hk, hke⟩
      rw [← hke]
      exact heapOrdN_root_min h2 k hk
  · intro t q st2
    have hmem : (⟨q.sid, t + 10, q⟩ : Entry) ∈ (addQuery t q st2).entries :=
      (mem_heapPushGo_iff st2 _ _).mpr (Or.inr rfl)
    rcases mem_iff_entAt.mp hmem with ⟨i, hi, hie⟩
    exact ⟨i, hi, hie⟩

/-- C7 (witness): the amended statement instantiated at a one-entry
ledger (id 7 inserted at time 0, so expiry 10) and a wake at time 20:
the entry is evicted and a subsequent remove of id 7 returns absent. -/
theorem updatePass_amended_witness :
    removeQuery 7 (updatePass 20 (addQuery 0 ⟨7, 1, ""⟩ emptyLedger)).1 =
      (none, (updatePass 20 (addQuery 0 ⟨7, 1, ""⟩ emptyLedger)).1) := by
  have hc : Consistent (addQuery 0 ⟨7, 1, ""⟩ emptyLedger) := by
    constructor
    · intro i hi
      have h1 : (addQuery 0 ⟨7, 1, ""⟩ emptyLedger).entries.length = 1 := by decide
      rw [h1] at hi
      have hi0 : i = 0 := by omega
      subst hi0
      decide
    · intro s i h
      have h2 : (addQuery 0 ⟨7, 1, ""⟩ emptyLedger).indices s =
          if s = 7 then some 0 else none := rfl
      rw [h2] at h
      by_cases hs : s = 7
      · rw [if_pos hs] at h
        obtain rfl : (0:Nat) = i := Option.some_inj.mp h
        subst hs
        exact ⟨by decide, by decide⟩
      · rw [if_neg hs] at h
        cases h
  have ho : HeapOrd (addQuery 0 ⟨7, 1, ""⟩ emptyLedger).entries := by
    intro j hj hj0
    have h1 : (addQuery 0 ⟨7, 1, ""⟩ emptyLedger).entries.length = 1 := by decide
    rw [h1] at hj
    omega
  have hns : ¬ sidMem 7 (updatePass 20 (addQuery 0 ⟨7, 1, ""⟩ emptyLedger)).1.entries := by
    rintro ⟨k, hk, _⟩
    have h0 : (updatePass 20 (addQuery 0 ⟨7, 1, ""⟩ emptyLedger)).1.entries.length = 0 := by
      decide
    omega
  exact (updatePass_amended 20 (addQuery 0 ⟨7, 1, ""⟩ emptyLedger) hc ho).2.2.2.2.1 7 hns
